import Mathlib

/-!
A verification development for the cooperative task-scheduling core
("Task"/"Pool" engine) of the repository.  The engine itself
(`lazyflow.request.request`: `Request`, `RequestPool`, the worker pool)
is not among the provided source files — only its test suite
(`tests/test_lazyflow/test_request/testRequestPool.py`) and callers are.
The definitions below are therefore modelled from the specification: a
deterministic shallow embedding of the engine's data model (task states,
results, failure records, callbacks, waiter sets, the ready queue, worker
result slots) and of its operations (submit, cancel, notify, the scheduler
step, pool wait, scoped pool acquisition).

Modelling choices, all taken from the spec's words:
* a computation is either a plain effectful function on the shared state
  (an append-only effect log `List Nat`), or a wait on another task
  followed by a continuation — one explicit suspension point;
* callback invocations are recorded as events carrying the task id, the
  callback id and the arguments the engine passes (the result value for
  finished callbacks; the exception and its exception info for failed
  callbacks; nothing extra for cancelled callbacks);
* the scheduler is sequential and cooperative: workers (round-robin over
  `numWorkers` slots) pop the ready queue and run one computation to
  completion or to its suspension point; a completed result is held in
  the worker's slot until that worker's next hand-back, which models the
  engine's transient retention of completed results.
-/

namespace RequestModel

/-- Task lifecycle states: `Pending → Running ⇄ Suspended → {Finished | Failed | Cancelled}`. -/
inductive TaskState
  | pending
  | running
  | suspended
  | finished
  | failed
  | cancelled
deriving DecidableEq, Repr

/-- The three terminal states. -/
def TaskState.isTerminal : TaskState → Bool
  | .finished => true
  | .failed => true
  | .cancelled => true
  | _ => false

/-- Outcome of running a computation: a result value or a raised error code. -/
inductive Outcome
  | ok (v : Nat)
  | err (x : Nat)
deriving DecidableEq, Repr

/-- A recorded callback invocation.  `fin` carries the finished task's result
value; `fail` carries the captured exception and its exception info (two
arguments); `cancl` carries no extra argument.  The differing argument shapes
per notification kind are part of the model. -/
inductive Event
  | fin (tid cb v : Nat)
  | fail (tid cb exc excInfo : Nat)
  | cancl (tid cb : Nat)
deriving DecidableEq, Repr

/-- Modelled from the spec: a task's computation.  Either a plain unit of work
on the shared effect log, or a wait on another task (`target`) followed by a
continuation receiving the awaited outcome — the explicit suspension point of
§4.2. -/
inductive Comp
  | op (f : List Nat → List Nat × Outcome)
  | waitThen (target : Nat) (k : Outcome → List Nat → List Nat × Outcome)

/-- Modelled from the spec (§3 data model): a task record — computation,
state, result value, failure record, cancellation-requested flag, ordered
callback lists, waiter set, and whether external code still references the
result. -/
structure Task where
  comp : Comp
  state : TaskState := .pending
  result : Option Nat := none
  failure : Option Nat := none
  cancelRequested : Bool := false
  finishedCbs : List Nat := []
  failedCbs : List Nat := []
  cancelledCbs : List Nat := []
  waiters : List Nat := []
  externalRef : Bool := false

/-- Modelled from the spec: the engine state — the task table, the shared
ready queue, the shared effect log, the event log of callback invocations,
the configured worker count, one result slot per worker (a completed result a
worker still holds before its next hand-back), and a round-robin tick. -/
structure Engine where
  tasks : List Task
  ready : List Nat := []
  shared : List Nat := []
  events : List Event := []
  numWorkers : Nat := 1
  slots : List (Option Nat) := [none]
  tick : Nat := 0

/-- A freshly created task: Pending, no side effects yet. -/
def freshTask (c : Comp) : Task := { comp := c }

/-- Build an engine over a list of computations, with `w` workers. -/
def mkEngine (cs : List Comp) (w : Nat) : Engine :=
  { tasks := cs.map freshTask, numWorkers := w, slots := List.replicate w none }

/-- The finished-callback invocations for a task, in registration order. -/
def finEvents (tid : Nat) (cbs : List Nat) (v : Nat) : List Event :=
  cbs.map fun cb => .fin tid cb v

/-- The failed-callback invocations for a task, in registration order: each
callback receives the exception and its exception info. -/
def failEvents (tid : Nat) (cbs : List Nat) (x : Nat) : List Event :=
  cbs.map fun cb => .fail tid cb x x

/-- The cancelled-callback invocations for a task, in registration order. -/
def canclEvents (tid : Nat) (cbs : List Nat) : List Event :=
  cbs.map fun cb => .cancl tid cb

/-- Wake one waiter: a task suspended on a now-terminal task is moved back to
Pending and re-enqueued exactly once.  Non-suspended entries are untouched. -/
def wakeOne (e : Engine) (w : Nat) : Engine :=
  match e.tasks[w]? with
  | some t =>
      if t.state = .suspended then
        { e with tasks := e.tasks.set w { t with state := .pending },
                 ready := e.ready ++ [w] }
      else e
  | none => e

/-- Wake every waiter in the set, in order. -/
def wakeAll (e : Engine) (ws : List Nat) : Engine := ws.foldl wakeOne e

/-- Terminal transition to Finished: record the result, fire the finished
callbacks in registration order with the result as argument, park the result
in the finishing worker's slot, and wake the waiters. -/
def finishTask (e : Engine) (tid : Nat) (v : Nat) (w : Nat) : Engine :=
  match e.tasks[tid]? with
  | none => e
  | some t =>
      wakeAll
        { e with
            tasks := e.tasks.set tid { t with state := .finished, result := some v },
            events := e.events ++ finEvents tid t.finishedCbs v,
            slots := e.slots.set w (some tid) }
        t.waiters

/-- Terminal transition to Failed: record the failure, fire the failed
callbacks in registration order with the exception and its info, wake the
waiters.  No result slot is occupied — there is no result. -/
def failTask (e : Engine) (tid : Nat) (x : Nat) : Engine :=
  match e.tasks[tid]? with
  | none => e
  | some t =>
      wakeAll
        { e with
            tasks := e.tasks.set tid { t with state := .failed, failure := some x },
            events := e.events ++ failEvents tid t.failedCbs x }
        t.waiters

/-- Terminal transition to Cancelled: fire the cancelled callbacks and wake
the waiters; the computation is not run. -/
def cancelTaskNow (e : Engine) (tid : Nat) : Engine :=
  match e.tasks[tid]? with
  | none => e
  | some t =>
      wakeAll
        { e with
            tasks := e.tasks.set tid { t with state := .cancelled },
            events := e.events ++ canclEvents tid t.cancelledCbs }
        t.waiters

/-- The error code delivered to a computation that awaited a cancelled task. -/
def cancelCode : Nat := 1000000

/-- The outcome a terminal task delivers to a suspended waiter's continuation;
`none` while the task is not yet terminal. -/
def innerOutcome (t : Task) : Option Outcome :=
  match t.state with
  | .finished => some (.ok (t.result.getD 0))
  | .failed => some (.err (t.failure.getD 0))
  | .cancelled => some (.err cancelCode)
  | _ => none

/-- Run a plain unit of work for task `tid` on worker `w`: apply it to the
shared log and take the matching terminal transition. -/
def runComp (e : Engine) (tid : Nat) (w : Nat) (f : List Nat → List Nat × Outcome) : Engine :=
  let r := f e.shared
  match r.2 with
  | .ok v => finishTask { e with shared := r.1 } tid v w
  | .err x => failTask { e with shared := r.1 } tid x

/-- One scheduler step: the next worker (round-robin) hands back the result it
was holding, pops the head of the ready queue and serves it.  An
already-terminal entry is skipped; a task whose cancellation was requested is
cancelled without running its computation; a plain computation runs to its
terminal transition; a waiting computation either continues with the awaited
outcome (target already terminal) or suspends, registering itself in the
target's waiter set and freeing the worker. -/
def step (e : Engine) : Engine :=
  match e.ready with
  | [] => e
  | tid :: rest =>
      let w := e.tick % max 1 e.numWorkers
      let e0 : Engine :=
        { e with ready := rest, tick := e.tick + 1, slots := e.slots.set w none }
      match e0.tasks[tid]? with
      | none => e0
      | some t =>
          if t.state.isTerminal then e0
          else if t.cancelRequested then cancelTaskNow e0 tid
          else
            match t.comp with
            | .op f => runComp e0 tid w f
            | .waitThen tgt k =>
                match e0.tasks[tgt]? with
                | none => failTask e0 tid cancelCode
                | some tt =>
                    match innerOutcome tt with
                    | some out => runComp e0 tid w (k out)
                    | none =>
                        { e0 with
                            tasks :=
                              (e0.tasks.set tid { t with state := .suspended }).set tgt
                                { tt with waiters := tt.waiters ++ [tid] } }

/-- Run the scheduler loop: up to `fuel` steps, stopping when the ready queue
is empty. -/
def runAll : Nat → Engine → Engine
  | 0, e => e
  | n + 1, e => if e.ready.isEmpty then e else runAll n (step e)

/-- Final hand-back: every worker returns to the scheduler loop and drops the
completed result it was still holding. -/
def handBack (e : Engine) : Engine :=
  { e with slots := List.replicate e.slots.length none }

/-- `submit` is idempotent: a Pending task not already enqueued is appended to
the ready queue; anything else is a no-op. -/
def submit (e : Engine) (tid : Nat) : Engine :=
  match e.tasks[tid]? with
  | none => e
  | some t =>
      if t.state = .pending ∧ ¬ tid ∈ e.ready then { e with ready := e.ready ++ [tid] }
      else e

/-- `cancel`: set the cancellation-requested flag (monotonic, advisory); it is
honored only when the scheduler next serves the task. -/
def cancelReq (e : Engine) (tid : Nat) : Engine :=
  match e.tasks[tid]? with
  | none => e
  | some t => { e with tasks := e.tasks.set tid { t with cancelRequested := true } }

/-- Register a finished-notification callback.  On an already-Finished task it
is dispatched immediately with the result; on another terminal state it will
never fire; otherwise it is appended to the registration-ordered list. -/
def notifyFinished (e : Engine) (tid cb : Nat) : Engine :=
  match e.tasks[tid]? with
  | none => e
  | some t =>
      match t.state with
      | .finished => { e with events := e.events ++ [.fin tid cb (t.result.getD 0)] }
      | .failed => e
      | .cancelled => e
      | _ => { e with tasks := e.tasks.set tid { t with finishedCbs := t.finishedCbs ++ [cb] } }

/-- Register a failed-notification callback, with immediate dispatch (carrying
the exception and its info) when the task already Failed. -/
def notifyFailed (e : Engine) (tid cb : Nat) : Engine :=
  match e.tasks[tid]? with
  | none => e
  | some t =>
      match t.state with
      | .failed => { e with events := e.events ++ [.fail tid cb (t.failure.getD 0) (t.failure.getD 0)] }
      | .finished => e
      | .cancelled => e
      | _ => { e with tasks := e.tasks.set tid { t with failedCbs := t.failedCbs ++ [cb] } }

/-- Register a cancelled-notification callback, with immediate dispatch when
the task is already Cancelled. -/
def notifyCancelled (e : Engine) (tid cb : Nat) : Engine :=
  match e.tasks[tid]? with
  | none => e
  | some t =>
      match t.state with
      | .cancelled => { e with events := e.events ++ [.cancl tid cb] }
      | .finished => e
      | .failed => e
      | _ => { e with tasks := e.tasks.set tid { t with cancelledCbs := t.cancelledCbs ++ [cb] } }

/-- What an ordinary external `wait()` call on a task delivers. -/
inductive WaitRes
  | result (v : Nat)
  | raised (x : Nat)
  | cancelledError
  | stillPending
deriving DecidableEq, Repr

/-- The delivery an external waiter observes from a task's record. -/
def Task.waitRes (t : Task) : WaitRes :=
  match t.state with
  | .finished => .result (t.result.getD 0)
  | .failed => .raised (t.failure.getD 0)
  | .cancelled => .cancelledError
  | _ => .stillPending

/-- External-code `wait()` on a task: run the scheduler, then deliver the
result, re-raise the failure, or raise the cancellation error. -/
def waitExternal (e : Engine) (tid : Nat) (fuel : Nat) : Engine × WaitRes :=
  let e1 := runAll fuel (submit e tid)
  (e1, match e1.tasks[tid]? with
       | some t => t.waitRes
       | none => .stillPending)

/-- Number of completed results the workers currently hold (occupied slots). -/
def countSome (l : List (Option Nat)) : Nat := (l.filter Option.isSome).length

/-- Number of finished results still referenced by external code. -/
def externalLive (e : Engine) : Nat :=
  (e.tasks.filter fun t => t.externalRef && t.state == .finished).length

/-- Modelled from the spec: the number of completed results alive at an
instant — those parked in worker slots plus those external code still holds. -/
def liveResults (e : Engine) : Nat := countSome e.slots + externalLive e

/-- Modelled from the spec (§4.4): the pool aggregator — ordered member set
and the observable flags `started`, `finished`, `failed`. -/
structure Pool where
  members : List Nat := []
  started : Bool := false
  finished : Bool := false
  failed : Bool := false
deriving Repr

/-- A pool freshly constructed: no members, all flags false. -/
def freshPool : Pool := {}

/-- Submit every member not yet submitted, in member order. -/
def submitAll (e : Engine) (ids : List Nat) : Engine := ids.foldl submit e

/-- The aggregated pool error: wraps the first member failure, by submission
order, as its preserved root cause. -/
structure RequestError where
  rootCause : Nat
deriving DecidableEq, Repr

/-- The failure of the first failed member in submission order, if any. -/
def firstFailure (e : Engine) : List Nat → Option Nat
  | [] => none
  | tid :: rest =>
      match e.tasks[tid]? with
      | some t => if t.state = .failed then some (t.failure.getD 0) else firstFailure e rest
      | none => firstFailure e rest

/-- `Pool.wait()`: submit every member, run the scheduler until the queue
drains, then either raise the aggregated error rooted at the first failure in
submission order, or return normally.  `started` and `finished` are set; and
`failed` is set exactly when a member failed. -/
def poolWait (p : Pool) (e : Engine) (fuel : Nat) : Pool × Engine × Option RequestError :=
  let e1 := runAll fuel (submitAll e p.members)
  match firstFailure e1 p.members with
  | some x => ({ p with started := true, finished := true, failed := true }, e1, some ⟨x⟩)
  | none => ({ p with started := true, finished := true }, e1, none)

/-- Add a member task to a pool under construction: a fresh task is appended
to the task table and its id recorded in the member list. -/
def addTask (pe : Pool × Engine) (c : Comp) : Pool × Engine :=
  ({ pe.1 with members := pe.1.members ++ [pe.2.tasks.length] },
   { pe.2 with tasks := pe.2.tasks ++ [freshTask c] })

/-- Modelled from the spec: what a scoped-acquisition body does — a sequence
of `add` calls and, possibly, an error the body itself raises afterwards. -/
structure PoolBody where
  adds : List Comp := []
  raises : Option Nat := none

/-- How a scoped acquisition concludes: normally, with the aggregated error of
a member failure, or with the scope body's own error propagated directly. -/
inductive CtxResult
  | ok
  | poolError (err : RequestError)
  | bodyError (x : Nat)
deriving DecidableEq, Repr

/-- Scoped acquisition of a pool: entering performs no submission; the body's
`add` calls register members; leaving normally triggers `wait()`; leaving
because the body raised propagates that error directly, without waiting and
without touching the flags. -/
def runPoolCtx (e : Engine) (body : PoolBody) (fuel : Nat) : Pool × Engine × CtxResult :=
  let pe := body.adds.foldl addTask (freshPool, e)
  match body.raises with
  | some x => (pe.1, pe.2, .bodyError x)
  | none =>
      match poolWait pe.1 pe.2 fuel with
      | (p2, e2, some er) => (p2, e2, .poolError er)
      | (p2, e2, none) => (p2, e2, .ok)

/-- The shared counter of the claim workloads: the length of the effect log. -/
def counter (e : Engine) : Nat := e.shared.length

/-- A computation that increments the shared counter by one. -/
def incComp : Comp := .op fun s => (s ++ [1], .ok 0)

/-- A family of independent plain tasks, described by a per-task effect on the
shared log (`F`), a per-task fixed outcome (`O`), per-task callback
registrations and external-reference flags. -/
structure BatchSpec where
  F : Nat → List Nat → List Nat
  O : Nat → Outcome
  fc : Nat → List Nat := fun _ => []
  fl : Nat → List Nat := fun _ => []
  cc : Nat → List Nat := fun _ => []
  xr : Nat → Bool := fun _ => false

/-- The initial (Pending) task record of member `tid` of a batch. -/
def BatchSpec.task (B : BatchSpec) (tid : Nat) : Task :=
  { comp := .op fun s => (B.F tid s, B.O tid),
    finishedCbs := B.fc tid, failedCbs := B.fl tid, cancelledCbs := B.cc tid,
    externalRef := B.xr tid }

/-- The terminal task record of member `tid` after its single execution. -/
def BatchSpec.done (B : BatchSpec) (tid : Nat) : Task :=
  match B.O tid with
  | .ok v => { B.task tid with state := .finished, result := some v }
  | .err x => { B.task tid with state := .failed, failure := some x }

/-- The callback invocations member `tid` emits on its terminal transition. -/
def BatchSpec.emits (B : BatchSpec) (tid : Nat) : List Event :=
  match B.O tid with
  | .ok v => finEvents tid (B.fc tid) v
  | .err x => failEvents tid (B.fl tid) x

/-- The shared log after the members in `ids` have each run once, in order. -/
def BatchSpec.fold (B : BatchSpec) : List Nat → List Nat → List Nat
  | [], s => s
  | tid :: rest, s => B.fold rest (B.F tid s)

/-- The first failure among the members, in submission order. -/
def BatchSpec.firstErr (B : BatchSpec) : List Nat → Option Nat
  | [] => none
  | tid :: rest =>
      match B.O tid with
      | .err x => some x
      | .ok _ => B.firstErr rest

/-- The batch of identical counter-incrementing tasks. -/
def incBatch : BatchSpec := { F := fun _ s => s ++ [1], O := fun _ => .ok 0 }

/-- The workload of the failed-pool test: task 9 raises error code 77, every
other task appends its own index to the shared list. -/
def failWorkload : BatchSpec :=
  { F := fun i s => if i = 9 then s else s ++ [i],
    O := fun i => if i = 9 then .err 77 else .ok 0 }

/-- A single task cancelled before it starts: one finished callback and one
cancelled callback are registered, the task is submitted, then cancellation is
requested before the scheduler serves it. -/
def cancelBeforeStart (c : Comp) (fcb ccb w : Nat) : Engine :=
  cancelReq (submit (notifyCancelled (notifyFinished (mkEngine [c] w) 0 fcb) 0 ccb) 0) 0

/-- `wait()` issued from inside another scheduled task's computation: a
wrapper task is created whose computation waits on `tid` and passes the
awaited outcome through; the wrapper is submitted (ahead of the target, so
that the wrapper actually suspends and resumes), the scheduler runs, and the
wrapper's own delivery is read off. -/
def waitViaTask (e : Engine) (tid : Nat) (fuel : Nat) : Engine × WaitRes :=
  let wid := e.tasks.length
  let e1 : Engine := { e with tasks := e.tasks ++ [freshTask (.waitThen tid fun o s => (s, o))] }
  let e2 := runAll fuel (submit (submit e1 wid) tid)
  (e2, match e2.tasks[wid]? with
       | some t => t.waitRes
       | none => .stillPending)

/-- No task's result is still referenced by external code — the
discard-immediately workload of the retention test. -/
def noExternalRefs (e : Engine) : Prop := ∀ t ∈ e.tasks, t.externalRef = false

/-- Structural well-formedness of the worker slots: one per worker. -/
def slotsWF (e : Engine) : Prop := e.slots.length = e.numWorkers

/-- A recorded callback invocation is consistent with its task's terminal
record: a finished callback was invoked with the task's result value as its
argument and only once the task finished; a failed callback was invoked with
the captured exception and its exception info and only once the task failed;
a cancelled callback was invoked only once the task was cancelled. -/
def consistentWith (tasks : List Task) : Event → Prop
  | .fin tid _ v => ∃ t, tasks[tid]? = some t ∧ t.state = .finished ∧ t.result = some v
  | .fail tid _ x i => ∃ t, tasks[tid]? = some t ∧ t.state = .failed ∧ t.failure = some x ∧ i = x
  | .cancl tid _ => ∃ t, tasks[tid]? = some t ∧ t.state = .cancelled

/-- Every recorded callback invocation is consistent with the task table. -/
def evOK (tasks : List Task) (events : List Event) : Prop :=
  ∀ ev ∈ events, consistentWith tasks ev

/-- The engine's event log is consistent: no callback ever fired before its
task's terminal state was fixed, and each fired with the matching record. -/
def evConsistent (e : Engine) : Prop := evOK e.tasks e.events

/-- The task id an event belongs to. -/
def Event.tid : Event → Nat
  | .fin tid _ _ => tid
  | .fail tid _ _ _ => tid
  | .cancl tid _ => tid

/-- The recorded invocations belonging to one task, in firing order. -/
def eventsOf (tid : Nat) (evs : List Event) : List Event :=
  evs.filter fun ev => ev.tid == tid

/-- A one-task engine whose task succeeds with value 3 and has one finished
callback (id 7) registered: the witness scenario for notification claims. -/
def oneCbEngine : Engine :=
  { tasks := [{ comp := .op fun s => (s, .ok 3), finishedCbs := [7] }]
    ready := [0]
    slots := [none] }

/-- The batch description matching `oneCbEngine`. -/
def oneCbBatch : BatchSpec := { F := fun _ s => s, O := fun _ => .ok 3, fc := fun _ => [7] }

/-- `n` independent counter-incrementing tasks submitted through one pool,
with `w` workers: the scenario of the basic pool test. -/
def incPoolRun (n w fuel : Nat) : Pool × Engine × Option RequestError :=
  poolWait { members := List.range n } (mkEngine (List.replicate n incComp) w) fuel

/-- The failed-pool test: ten member tasks, index 9 raising error 77, the
rest appending their index, aggregated by one pool with four workers. -/
def failPoolRun (fuel : Nat) : Pool × Engine × Option RequestError :=
  poolWait { members := List.range 10 }
    (mkEngine ((List.range 10).map fun i => .op fun s => (failWorkload.F i s, failWorkload.O i)) 4)
    fuel

/-- A concrete already-finished task record, used to probe immutability. -/
def doneProbe : Task := { comp := incComp, state := .finished, result := some 5 }

/-- An engine holding just the finished probe task. -/
def doneProbeEngine : Engine := { tasks := [doneProbe], slots := [none] }

end RequestModel

namespace RequestModel

/-- A drained ready queue means the scheduler loop does nothing. -/
theorem runAll_empty (n : Nat) (e : Engine) (h : e.ready = []) : runAll n e = e := by
  cases n with
  | zero => rfl
  | succ n => simp [runAll, h]

/-- One unfolding of the scheduler loop on a non-empty ready queue. -/
theorem runAll_cons (n : Nat) (e : Engine) (tid : Nat) (rest : List Nat)
    (h : e.ready = tid :: rest) : runAll (n + 1) e = runAll n (step e) := by
  simp [runAll, h]

/-- Spending leftover fuel after the queue has drained changes nothing. -/
theorem runAll_add (a b : Nat) (e : Engine) (h : (runAll a e).ready = []) :
    runAll (a + b) e = runAll a e := by
  induction a generalizing e with
  | zero =>
      simpa using runAll_empty b e h
  | succ a ih =>
      by_cases hr : e.ready = []
      · rw [runAll_empty (a + 1 + b) e hr, runAll_empty (a + 1) e hr]
      · obtain ⟨tid, rest, hcons⟩ : ∃ tid rest, e.ready = tid :: rest := by
          cases hready : e.ready with
          | nil => exact absurd hready hr
          | cons x xs => exact ⟨x, xs, rfl⟩
        have h1 : runAll (a + 1) e = runAll a (step e) := runAll_cons a e tid rest hcons
        have h2 : runAll (a + 1 + b) e = runAll (a + b) (step e) := by
          have : a + 1 + b = (a + b) + 1 := by omega
          rw [this]
          exact runAll_cons (a + b) e tid rest hcons
        rw [h1] at h ⊢
        rw [h2, ih (step e) h]

/-- One scheduler step on a fresh plain task at the head of the queue: the
computation runs once on the shared log and the task takes its matching
terminal transition, firing its callbacks in registration order. -/
theorem step_op_run (e : Engine) (tid : Nat) (rest : List Nat) (t : Task)
    (f : List Nat → List Nat × Outcome)
    (hready : e.ready = tid :: rest)
    (ht : e.tasks[tid]? = some t)
    (hst : t.state = .pending) (hcr : t.cancelRequested = false)
    (hcomp : t.comp = .op f) (hwt : t.waiters = []) :
    step e =
      match (f e.shared).2 with
      | .ok v =>
          { e with ready := rest, tick := e.tick + 1,
                   shared := (f e.shared).1,
                   slots := e.slots.set (e.tick % max 1 e.numWorkers) (some tid),
                   events := e.events ++ finEvents tid t.finishedCbs v,
                   tasks := e.tasks.set tid { t with state := .finished, result := some v } }
      | .err x =>
          { e with ready := rest, tick := e.tick + 1,
                   shared := (f e.shared).1,
                   slots := e.slots.set (e.tick % max 1 e.numWorkers) none,
                   events := e.events ++ failEvents tid t.failedCbs x,
                   tasks := e.tasks.set tid { t with state := .failed, failure := some x } } := by
  unfold step
  rw [hready]
  simp only [ht, hst, hcr, hcomp, TaskState.isTerminal, Bool.false_eq_true, if_false,
    runComp, finishTask, failTask, wakeAll, hwt, List.foldl_nil]
  cases ho : (f e.shared).2 with
  | ok v => simp [ho, ht, wakeAll, hwt, List.set_set]
  | err x => simp [ho, ht, wakeAll, hwt]

/-- The terminal record of a batch member succeeding with `v`. -/
theorem BatchSpec.done_ok (B : BatchSpec) (tid v : Nat) (h : B.O tid = .ok v) :
    B.done tid = { B.task tid with state := .finished, result := some v } := by
  simp [BatchSpec.done, h]

/-- The terminal record of a batch member failing with `x`. -/
theorem BatchSpec.done_err (B : BatchSpec) (tid x : Nat) (h : B.O tid = .err x) :
    B.done tid = { B.task tid with state := .failed, failure := some x } := by
  simp [BatchSpec.done, h]

/-- The events of a succeeding batch member are its finished callbacks. -/
theorem BatchSpec.emits_ok (B : BatchSpec) (tid v : Nat) (h : B.O tid = .ok v) :
    B.emits tid = finEvents tid (B.fc tid) v := by
  simp [BatchSpec.emits, h]

/-- The events of a failing batch member are its failed callbacks. -/
theorem BatchSpec.emits_err (B : BatchSpec) (tid x : Nat) (h : B.O tid = .err x) :
    B.emits tid = failEvents tid (B.fl tid) x := by
  simp [BatchSpec.emits, h]

/-- Submitting a list of fresh Pending members appends them, in order, to the
ready queue and changes nothing else — `submit` is idempotent and order
preserving. -/
theorem submitAll_pending (ids : List Nat) (e : Engine)
    (hnd : ids.Nodup)
    (htasks : ∀ tid ∈ ids, ∃ t, e.tasks[tid]? = some t ∧ t.state = .pending)
    (hdisj : ∀ tid ∈ ids, ¬ tid ∈ e.ready) :
    submitAll e ids = { e with ready := e.ready ++ ids } := by
  induction ids generalizing e with
  | nil => simp [submitAll]
  | cons tid rest ih =>
      obtain ⟨t, ht, hst⟩ := htasks tid (by simp)
      have h1 : submit e tid = { e with ready := e.ready ++ [tid] } := by
        simp [submit, ht, hst, hdisj tid (by simp)]
      have h2 : submitAll e (tid :: rest) = submitAll (submit e tid) rest := rfl
      rw [h2, h1, ih]
      · simp
      · exact hnd.of_cons
      · intro j hj
        obtain ⟨u, hu, hsu⟩ := htasks j (by simp [hj])
        exact ⟨u, hu, hsu⟩
      · intro j hj
        simp only [List.mem_append, List.mem_singleton]
        push_neg
        refine ⟨hdisj j (by simp [hj]), ?_⟩
        intro hje
        exact (List.nodup_cons.mp hnd).1 (hje ▸ hj)

/-- Scheduler correctness for a batch of fresh independent plain tasks queued
in order: the run drains the queue, applies every member's effect to the
shared log exactly once and in queue order, appends exactly each member's
callback invocations in queue order, leaves every member in its matching
terminal record, and touches no other task. -/
theorem runAll_batch (B : BatchSpec) (ids : List Nat) (e : Engine)
    (hnd : ids.Nodup)
    (hready : e.ready = ids)
    (htasks : ∀ tid ∈ ids, e.tasks[tid]? = some (B.task tid)) :
    (runAll ids.length e).ready = [] ∧
    (runAll ids.length e).shared = B.fold ids e.shared ∧
    (runAll ids.length e).events = e.events ++ (ids.map B.emits).flatten ∧
    (∀ tid ∈ ids, (runAll ids.length e).tasks[tid]? = some (B.done tid)) ∧
    (∀ j, ¬ j ∈ ids → (runAll ids.length e).tasks[j]? = e.tasks[j]?) := by
  induction ids generalizing e with
  | nil =>
      simp [runAll_empty _ _ hready, BatchSpec.fold, hready]
  | cons tid rest ih =>
      have ht := htasks tid (by simp)
      have htid_lt : tid < e.tasks.length := (List.getElem?_eq_some.mp ht).1
      have hnotin : ¬ tid ∈ rest := (List.nodup_cons.mp hnd).1
      have hstep := step_op_run e tid rest (B.task tid)
        (fun s => (B.F tid s, B.O tid)) hready ht rfl rfl rfl rfl
      have hlen : (tid :: rest).length = rest.length + 1 := rfl
      rw [hlen, runAll_cons rest.length e tid rest hready]
      cases hO : B.O tid with
      | ok v =>
          simp only [hO] at hstep
          have hsT : (step e).tasks
              = e.tasks.set tid { B.task tid with state := .finished, result := some v } := by
            rw [hstep]
          have hsS : (step e).shared = B.F tid e.shared := by rw [hstep]
          have hsE : (step e).events = e.events ++ finEvents tid (B.fc tid) v := by
            rw [hstep]; simp [BatchSpec.task]
          have hsR : (step e).ready = rest := by rw [hstep]
          obtain ⟨ih1, ih2, ih3, ih4, ih5⟩ := ih (step e) hnd.of_cons hsR (by
            intro j hj
            have hjt : j ≠ tid := fun heq => hnotin (heq ▸ hj)
            rw [hsT, List.getElem?_set_ne (Ne.symm hjt)]
            exact htasks j (by simp [hj]))
          refine ⟨ih1, ?_, ?_, ?_, ?_⟩
          · rw [ih2, hsS]; rfl
          · rw [ih3, hsE]
            simp [B.emits_ok tid v hO, List.append_assoc]
          · intro j hj
            rcases List.mem_cons.mp hj with hjt | hjr
            · subst hjt
              rw [ih5 j hnotin, hsT, List.getElem?_set_eq_of_lt _ htid_lt,
                B.done_ok j v hO]
            · exact ih4 j hjr
          · intro j hj
            have hjt : j ≠ tid := fun hq => hj (by simp [hq])
            have hjr : ¬ j ∈ rest := fun hq => hj (by simp [hq])
            rw [ih5 j hjr, hsT, List.getElem?_set_ne (Ne.symm hjt)]
      | err x =>
          simp only [hO] at hstep
          have hsT : (step e).tasks
              = e.tasks.set tid { B.task tid with state := .failed, failure := some x } := by
            rw [hstep]
          have hsS : (step e).shared = B.F tid e.shared := by rw [hstep]
          have hsE : (step e).events = e.events ++ failEvents tid (B.fl tid) x := by
            rw [hstep]; simp [BatchSpec.task]
          have hsR : (step e).ready = rest := by rw [hstep]
          obtain ⟨ih1, ih2, ih3, ih4, ih5⟩ := ih (step e) hnd.of_cons hsR (by
            intro j hj
            have hjt : j ≠ tid := fun heq => hnotin (heq ▸ hj)
            rw [hsT, List.getElem?_set_ne (Ne.symm hjt)]
            exact htasks j (by simp [hj]))
          refine ⟨ih1, ?_, ?_, ?_, ?_⟩
          · rw [ih2, hsS]; rfl
          · rw [ih3, hsE]
            simp [B.emits_err tid x hO, List.append_assoc]
          · intro j hj
            rcases List.mem_cons.mp hj with hjt | hjr
            · subst hjt
              rw [ih5 j hnotin, hsT, List.getElem?_set_eq_of_lt _ htid_lt,
                B.done_err j x hO]
            · exact ih4 j hjr
          · intro j hj
            have hjt : j ≠ tid := fun hq => hj (by simp [hq])
            have hjr : ¬ j ∈ rest := fun hq => hj (by simp [hq])
            rw [ih5 j hjr, hsT, List.getElem?_set_ne (Ne.symm hjt)]

/-- Over the terminal records of a completed batch, the engine's
first-failure scan agrees with the batch's first failure in submission
order. -/
theorem firstFailure_batch (B : BatchSpec) (e : Engine) (ids : List Nat)
    (h : ∀ tid ∈ ids, e.tasks[tid]? = some (B.done tid)) :
    firstFailure e ids = B.firstErr ids := by
  induction ids with
  | nil => rfl
  | cons tid rest ih =>
      have ht := h tid (by simp)
      cases hO : B.O tid with
      | ok v =>
          rw [B.done_ok tid v hO] at ht
          simp only [firstFailure, ht, BatchSpec.firstErr, hO]
          simp only [BatchSpec.task]
          rw [if_neg (by simp)]
          exact ih fun j hj => h j (by simp [hj])
      | err x =>
          rw [B.done_err tid x hO] at ht
          simp only [firstFailure, ht, BatchSpec.firstErr, hO]
          simp [BatchSpec.task]

/-- The incrementing batch appends one `1` per member to the shared log. -/
theorem incBatch_fold (ids : List Nat) (s : List Nat) :
    incBatch.fold ids s = s ++ List.replicate ids.length 1 := by
  induction ids generalizing s with
  | nil => simp [BatchSpec.fold]
  | cons tid rest ih =>
      show incBatch.fold rest (incBatch.F tid s) = _
      rw [ih]
      simp [incBatch, List.replicate_succ]

/-- `Pool.wait()` on a batch of fresh independent members: the flags are set
(`failed` exactly when some member failed), the aggregated error is rooted at
the first failure in submission order, the shared log records every member's
effect exactly once in order, the callback invocations are exactly the
members' registered ones, and every member ends in its terminal record. -/
theorem poolWait_batch (B : BatchSpec) (ids : List Nat) (p : Pool) (e : Engine) (fuel : Nat)
    (hnd : ids.Nodup) (hready : e.ready = [])
    (htasks : ∀ tid ∈ ids, e.tasks[tid]? = some (B.task tid))
    (hp : p.members = ids) (hfuel : ids.length ≤ fuel) :
    (poolWait p e fuel).1
      = { p with started := true, finished := true,
                 failed := (p.failed || (B.firstErr ids).isSome) } ∧
    (poolWait p e fuel).2.2 = (B.firstErr ids).map (fun x => ⟨x⟩) ∧
    (poolWait p e fuel).2.1.shared = B.fold ids e.shared ∧
    (poolWait p e fuel).2.1.events = e.events ++ (ids.map B.emits).flatten ∧
    (∀ tid ∈ ids, (poolWait p e fuel).2.1.tasks[tid]? = some (B.done tid)) ∧
    (poolWait p e fuel).2.1.ready = [] := by
  have hsub : submitAll e ids = { e with ready := ids } := by
    have h := submitAll_pending ids e hnd
      (fun tid hm => ⟨B.task tid, htasks tid hm, rfl⟩) (by simp [hready])
    rw [h, hready]
    simp
  obtain ⟨hb1, hb2, hb3, hb4, hb5⟩ :=
    runAll_batch B ids { e with ready := ids } hnd rfl htasks
  have hrunfuel : runAll fuel { e with ready := ids }
      = runAll ids.length { e with ready := ids } := by
    have hsplit : fuel = ids.length + (fuel - ids.length) := by omega
    rw [hsplit, runAll_add _ _ _ hb1]
  have hff : firstFailure (runAll ids.length { e with ready := ids }) ids
      = B.firstErr ids := firstFailure_batch B _ ids hb4
  simp only [poolWait, hp, hsub, hrunfuel, hff]
  cases hfe : B.firstErr ids with
  | none =>
      refine ⟨by simp, by simp, by simpa using hb2, by simpa using hb3, hb4, hb1⟩
  | some x =>
      refine ⟨by simp, by simp, by simpa using hb2, by simpa using hb3, hb4, hb1⟩

/-- The incrementing batch has no failing member. -/
theorem incBatch_firstErr (ids : List Nat) : incBatch.firstErr ids = none := by
  induction ids with
  | nil => rfl
  | cons tid rest ih => simpa [BatchSpec.firstErr, incBatch] using ih

/-- C1: for every N ≥ 0 (and any worker count and sufficient fuel), adding N
independent counter-incrementing tasks to a pool and calling `wait()` makes
each of the N side effects occur exactly once — the shared log is exactly N
ones, so the counter equals N (in particular 500 for N = 500) — no task is
skipped and none runs twice, every member finishes, no error is raised, and
the pool flags read started/finished/not-failed. -/
theorem pool_runs_every_task_once (n w fuel : Nat) (hfuel : n ≤ fuel) :
    (incPoolRun n w fuel).2.1.shared = List.replicate n 1 ∧
    counter (incPoolRun n w fuel).2.1 = n ∧
    (incPoolRun n w fuel).2.2 = none ∧
    (incPoolRun n w fuel).1
      = { members := List.range n, started := true, finished := true, failed := false } ∧
    (∀ tid < n, (incPoolRun n w fuel).2.1.tasks[tid]? = some (incBatch.done tid)) := by
  have hnd := List.nodup_range n
  have htasks : ∀ tid ∈ List.range n,
      (mkEngine (List.replicate n incComp) w).tasks[tid]? = some (incBatch.task tid) := by
    intro tid hm
    have hlt := List.mem_range.mp hm
    show ((List.replicate n incComp).map freshTask)[tid]? = some (incBatch.task tid)
    rw [List.map_replicate]
    simp [List.getElem?_replicate, hlt]
    rfl
  obtain ⟨h1, h2, h3, h4, h5, h6⟩ :=
    poolWait_batch incBatch (List.range n) { members := List.range n }
      (mkEngine (List.replicate n incComp) w) fuel hnd rfl htasks rfl
      (by simpa using hfuel)
  have hfe := incBatch_firstErr (List.range n)
  refine ⟨?_, ?_, ?_, ?_, ?_⟩
  · show (incPoolRun n w fuel).2.1.shared = _
    rw [show (incPoolRun n w fuel).2.1 = (poolWait _ _ _).2.1 from rfl, h3]
    have : (mkEngine (List.replicate n incComp) w).shared = [] := rfl
    rw [this, incBatch_fold]
    simp
  · show ((incPoolRun n w fuel).2.1.shared).length = n
    rw [show (incPoolRun n w fuel).2.1 = (poolWait _ _ _).2.1 from rfl, h3]
    have : (mkEngine (List.replicate n incComp) w).shared = [] := rfl
    rw [this, incBatch_fold]
    simp
  · show (poolWait _ _ _).2.2 = none
    rw [h2, hfe]
    rfl
  · show (poolWait _ _ _).1 = _
    rw [h1, hfe]
    rfl
  · intro tid hlt
    exact h5 tid (List.mem_range.mpr hlt)

/-- C1 witness: 500 incrementing tasks leave the counter at exactly 500 and
`wait()` raises no error. -/
theorem pool_runs_every_task_once_witness :
    counter (incPoolRun 500 4 500).2.1 = 500 ∧ (incPoolRun 500 4 500).2.2 = none :=
  ⟨(pool_runs_every_task_once 500 4 500 (by decide)).2.1,
   (pool_runs_every_task_once 500 4 500 (by decide)).2.2.1⟩

/-- C9: `wait()` on a pool with zero members returns immediately — the engine
is untouched, not a single scheduler step is observable — and without raising
any error; the flags read started and finished. -/
theorem empty_pool_wait_returns (e : Engine) (fuel : Nat) (h : e.ready = []) :
    poolWait freshPool e fuel = ({ freshPool with started := true, finished := true }, e, none) := by
  show poolWait freshPool e fuel = _
  unfold poolWait
  have hsub : submitAll e freshPool.members = e := rfl
  rw [hsub, runAll_empty fuel e h]
  rfl

/-- C2: whenever at least one member of a pool of fresh independent tasks
fails, `pool.wait()` raises an aggregated error whose preserved root cause is
the first failure in submission order, while every non-failing member still
runs to its own completion (its terminal record is Finished with its result);
in the concrete ten-member workload where only index 9 raises error 77,
`wait()` raises the aggregated error rooted at 77 and indices 0 through 8
have all appended themselves to the shared list. -/
theorem pool_aggregates_first_failure :
    (∀ (B : BatchSpec) (ids : List Nat) (p : Pool) (e : Engine) (fuel : Nat),
        ids.Nodup → e.ready = [] →
        (∀ tid ∈ ids, e.tasks[tid]? = some (B.task tid)) →
        p.members = ids → ids.length ≤ fuel →
        ((B.firstErr ids).isSome = true →
            (poolWait p e fuel).2.2 = some ⟨(B.firstErr ids).getD 0⟩) ∧
        (∀ tid ∈ ids, ∀ v, B.O tid = .ok v →
            (poolWait p e fuel).2.1.tasks[tid]?
              = some { B.task tid with state := .finished, result := some v })) ∧
    ((failPoolRun 10).2.2 = some ⟨77⟩ ∧
     (failPoolRun 10).2.1.shared = [0, 1, 2, 3, 4, 5, 6, 7, 8] ∧
     (∀ i < 9, i ∈ (failPoolRun 10).2.1.shared)) := by
  constructor
  · intro B ids p e fuel hnd hready htasks hp hfuel
    obtain ⟨h1, h2, h3, h4, h5, h6⟩ := poolWait_batch B ids p e fuel hnd hready htasks hp hfuel
    constructor
    · intro hsome
      obtain ⟨x, hx⟩ := Option.isSome_iff_exists.mp hsome
      rw [h2, hx]
      rfl
    · intro tid hm v hok
      rw [h5 tid hm, B.done_ok tid v hok]
  · exact ⟨by decide, by decide, by decide⟩

/-- C2 witness: the general aggregation theorem applied to a one-member pool
whose single task raises error 5 — `wait()` reports root cause 5. -/
theorem pool_aggregates_first_failure_witness :
    (poolWait { members := [0] } (mkEngine [Comp.op fun s => (s, Outcome.err 5)] 1) 1).2.2
      = some ⟨5⟩ := by
  have h := (pool_aggregates_first_failure.1
      { F := fun _ s => s, O := fun _ => .err 5 } [0] { members := [0] }
      (mkEngine [Comp.op fun s => (s, Outcome.err 5)] 1) 1
      (by decide) rfl
      (by
        intro tid hm
        have : tid = 0 := by simpa using hm
        subst this
        rfl)
      rfl (by decide)).1 rfl
  simpa using h

/-- A scope body's `add` calls touch only the member list and the task table:
the pool flags and the engine's queue, log and events are untouched. -/
theorem addsFold_preserves (cs : List Comp) (p : Pool) (e : Engine) :
    (cs.foldl addTask (p, e)).1.started = p.started ∧
    (cs.foldl addTask (p, e)).1.finished = p.finished ∧
    (cs.foldl addTask (p, e)).1.failed = p.failed ∧
    (cs.foldl addTask (p, e)).2.shared = e.shared ∧
    (cs.foldl addTask (p, e)).2.events = e.events ∧
    (cs.foldl addTask (p, e)).2.ready = e.ready := by
  induction cs generalizing p e with
  | nil => exact ⟨rfl, rfl, rfl, rfl, rfl, rfl⟩
  | cons c rest ih =>
      have hstep : (c :: rest).foldl addTask (p, e) = rest.foldl addTask (addTask (p, e) c) := rfl
      rw [hstep]
      exact ih _ _

/-- `Pool.wait()` always sets `started` and `finished`; it leaves `failed`
alone when it raises nothing and sets it when it raises. -/
theorem poolWait_flags (p : Pool) (e : Engine) (fuel : Nat) :
    (poolWait p e fuel).1.started = true ∧ (poolWait p e fuel).1.finished = true ∧
    ((poolWait p e fuel).2.2 = none → (poolWait p e fuel).1.failed = p.failed) ∧
    (∀ er, (poolWait p e fuel).2.2 = some er → (poolWait p e fuel).1.failed = true) := by
  unfold poolWait
  cases hff : firstFailure (runAll fuel (submitAll e p.members)) p.members with
  | none => simp [hff]
  | some x => simp [hff]

/-- C6: a pool used via scoped acquisition: when the scope exits normally and
`wait()` completes with no member failure, the flags read `started` = true,
`finished` = true and `failed` = false; when the scope body itself raises,
that error propagates directly out — `failed` stays false and the engine shows
no waiting at all (no events, no log change, no queue change: outstanding
members were not awaited). -/
theorem scoped_pool_flags (e : Engine) (body : PoolBody) (fuel : Nat) :
    (body.raises = none → (runPoolCtx e body fuel).2.2 = .ok →
        (runPoolCtx e body fuel).1.started = true ∧
        (runPoolCtx e body fuel).1.finished = true ∧
        (runPoolCtx e body fuel).1.failed = false) ∧
    (∀ x, body.raises = some x →
        (runPoolCtx e body fuel).2.2 = .bodyError x ∧
        (runPoolCtx e body fuel).1.started = false ∧
        (runPoolCtx e body fuel).1.failed = false ∧
        (runPoolCtx e body fuel).2.1.events = e.events ∧
        (runPoolCtx e body fuel).2.1.shared = e.shared ∧
        (runPoolCtx e body fuel).2.1.ready = e.ready) := by
  obtain ⟨hf1, hf2, hf3, hf4, hf5, hf6⟩ := addsFold_preserves body.adds freshPool e
  constructor
  · intro hb hok
    have hrc : runPoolCtx e body fuel
        = (match poolWait (body.adds.foldl addTask (freshPool, e)).1
              (body.adds.foldl addTask (freshPool, e)).2 fuel with
           | (p2, e2, some er) => (p2, e2, CtxResult.poolError er)
           | (p2, e2, none) => (p2, e2, CtxResult.ok)) := by
      unfold runPoolCtx
      rw [hb]
    obtain ⟨hw1, hw2, hw3, _⟩ :=
      poolWait_flags (body.adds.foldl addTask (freshPool, e)).1
        (body.adds.foldl addTask (freshPool, e)).2 fuel
    rcases hpw : poolWait (body.adds.foldl addTask (freshPool, e)).1
        (body.adds.foldl addTask (freshPool, e)).2 fuel with ⟨p2, e2, er⟩
    rw [hpw] at hrc hw1 hw2 hw3
    rw [hrc] at hok
    cases er with
    | some er0 => simp at hok
    | none =>
        rw [hrc]
        have hfl : p2.failed = false := by
          have h1 : p2.failed = (body.adds.foldl addTask (freshPool, e)).1.failed := hw3 rfl
          rw [h1, hf3]
          rfl
        exact ⟨hw1, hw2, hfl⟩
  · intro x hb
    have hrc : runPoolCtx e body fuel
        = ((body.adds.foldl addTask (freshPool, e)).1,
           (body.adds.foldl addTask (freshPool, e)).2, CtxResult.bodyError x) := by
      unfold runPoolCtx
      rw [hb]
    rw [hrc]
    refine ⟨rfl, ?_, ?_, hf5, hf4, hf6⟩
    · show (body.adds.foldl addTask (freshPool, e)).1.started = false
      rw [hf1]
      rfl
    · show (body.adds.foldl addTask (freshPool, e)).1.failed = false
      rw [hf3]
      rfl

/-- C6 witness: a two-member scoped pool completing cleanly has
started/finished set and failed unset; a scope body raising error 3 over one
pending member propagates error 3 with failed unset and no waiting. -/
theorem scoped_pool_flags_witness :
    ((runPoolCtx (mkEngine [] 2) { adds := [incComp, incComp] } 10).1.started = true ∧
     (runPoolCtx (mkEngine [] 2) { adds := [incComp, incComp] } 10).1.finished = true ∧
     (runPoolCtx (mkEngine [] 2) { adds := [incComp, incComp] } 10).1.failed = false) ∧
    ((runPoolCtx (mkEngine [] 2) { adds := [incComp], raises := some 3 } 10).2.2
        = .bodyError 3 ∧
     (runPoolCtx (mkEngine [] 2) { adds := [incComp], raises := some 3 } 10).1.failed
        = false) :=
  ⟨(scoped_pool_flags (mkEngine [] 2) { adds := [incComp, incComp] } 10).1 rfl (by decide),
   ⟨((scoped_pool_flags (mkEngine [] 2) { adds := [incComp], raises := some 3 } 10).2
      3 rfl).1,
    ((scoped_pool_flags (mkEngine [] 2) { adds := [incComp], raises := some 3 } 10).2
      3 rfl).2.2.1⟩⟩

/-- C8: a task cancelled before it starts never runs its computation (the
shared log stays empty no matter what the computation is), its
cancelled-notification callback fires, and its finished-notification callback
does not — the only event of the run is the cancelled dispatch and the task's
terminal record is Cancelled with no result. -/
theorem cancel_prevents_run (c : Comp) (fcb ccb w fuel : Nat) (hf : 1 ≤ fuel) :
    (runAll fuel (cancelBeforeStart c fcb ccb w)).shared = [] ∧
    (runAll fuel (cancelBeforeStart c fcb ccb w)).events = [.cancl 0 ccb] ∧
    (runAll fuel (cancelBeforeStart c fcb ccb w)).tasks[0]?
      = some { comp := c, state := .cancelled, cancelRequested := true,
               finishedCbs := [fcb], cancelledCbs := [ccb] } := by
  have hE : cancelBeforeStart c fcb ccb w
      = { tasks := [{ comp := c, cancelRequested := true, finishedCbs := [fcb],
                      cancelledCbs := [ccb] }],
          ready := [0], numWorkers := w, slots := List.replicate w none } := rfl
  obtain ⟨k, hk⟩ : ∃ k, fuel = 1 + k := ⟨fuel - 1, by omega⟩
  subst hk
  rw [hE, runAll_add 1 k _ (by rfl)]
  exact ⟨rfl, rfl, rfl⟩

/-- C8 witness: the increment task cancelled before starting leaves the log
empty and fires only its cancelled callback. -/
theorem cancel_prevents_run_witness :
    (runAll 1 (cancelBeforeStart incComp 3 4 1)).shared = [] ∧
    (runAll 1 (cancelBeforeStart incComp 3 4 1)).events = [.cancl 0 4] :=
  ⟨(cancel_prevents_run incComp 3 4 1 1 (by decide)).1,
   (cancel_prevents_run incComp 3 4 1 1 (by decide)).2.1⟩

/-- C4: for any computation, `wait()` from ordinary external code and
`wait()` issued from inside another scheduled task's computation (which goes
through the suspension/resumption protocol: the waiter suspends, is recorded
in the target's waiter set, and resumes after the target's terminal
transition) deliver identical observable outcomes — the same result on
success and the same failure on error. -/
theorem wait_context_equiv (f : List Nat → List Nat × Outcome) (w : Nat) :
    (waitExternal (mkEngine [.op f] w) 0 1).2 = (waitViaTask (mkEngine [.op f] w) 0 3).2 ∧
    (waitExternal (mkEngine [.op f] w) 0 1).2
      = (match (f []).2 with
         | .ok v => .result v
         | .err x => .raised x) := by
  cases hf : (f []).2 with
  | ok v =>
      constructor
      · simp [waitExternal, waitViaTask, submit, runAll, step, runComp, finishTask, failTask,
          wakeAll, wakeOne, mkEngine, freshTask, innerOutcome, Task.waitRes, hf,
          TaskState.isTerminal]
      · simp [waitExternal, submit, runAll, step, runComp, finishTask, failTask,
          wakeAll, wakeOne, mkEngine, freshTask, Task.waitRes, hf, TaskState.isTerminal]
  | err x =>
      constructor
      · simp [waitExternal, waitViaTask, submit, runAll, step, runComp, finishTask, failTask,
          wakeAll, wakeOne, mkEngine, freshTask, innerOutcome, Task.waitRes, hf,
          TaskState.isTerminal]
      · simp [waitExternal, submit, runAll, step, runComp, finishTask, failTask,
          wakeAll, wakeOne, mkEngine, freshTask, Task.waitRes, hf, TaskState.isTerminal]

/-- A terminal state is not Suspended. -/
theorem isTerminal_ne_suspended {s : TaskState} (h : s.isTerminal = true) :
    ¬ s = .suspended := by
  intro hs
  subst hs
  simp [TaskState.isTerminal] at h

/-- Waking a waiter never touches a task that is not suspended. -/
theorem wakeOne_frozen (e : Engine) (w tid : Nat) (t : Task) (ht : e.tasks[tid]? = some t)
    (hns : ¬ t.state = .suspended) : (wakeOne e w).tasks[tid]? = some t := by
  unfold wakeOne
  cases hw : e.tasks[w]? with
  | none => simp only [hw]; exact ht
  | some tw =>
      simp only [hw]
      by_cases hsus : tw.state = .suspended
      · rw [if_pos hsus]
        by_cases hwt : w = tid
        · subst hwt
          rw [ht] at hw
          injection hw with hw'
          subst hw'
          exact absurd hsus hns
        · show (e.tasks.set w _)[tid]? = some t
          rw [List.getElem?_set_ne hwt]
          exact ht
      · rw [if_neg hsus]
        exact ht

/-- Waking a waiter set never touches a task that is not suspended. -/
theorem wakeAll_frozen (ws : List Nat) (e : Engine) (tid : Nat) (t : Task)
    (ht : e.tasks[tid]? = some t) (hns : ¬ t.state = .suspended) :
    (wakeAll e ws).tasks[tid]? = some t := by
  induction ws generalizing e with
  | nil => exact ht
  | cons w ws ih => exact ih (wakeOne e w) (wakeOne_frozen e w tid t ht hns)

/-- Finishing one task leaves every already-terminal task's record intact. -/
theorem finishTask_frozen (e : Engine) (j v w tid : Nat) (t : Task)
    (ht : e.tasks[tid]? = some t) (hterm : t.state.isTerminal = true)
    (hj : ∀ tj, e.tasks[j]? = some tj → tj.state.isTerminal = false) :
    (finishTask e j v w).tasks[tid]? = some t := by
  unfold finishTask
  cases hjt : e.tasks[j]? with
  | none => simp only [hjt]; exact ht
  | some tj =>
      simp only [hjt]
      have hne : j ≠ tid := by
        intro h
        subst h
        have hf2 := hj tj hjt
        rw [ht] at hjt
        injection hjt with h2
        rw [h2] at hterm
        rw [hf2] at hterm
        exact Bool.false_ne_true hterm
      apply wakeAll_frozen
      · show (e.tasks.set j _)[tid]? = some t
        rw [List.getElem?_set_ne hne]
        exact ht
      · exact isTerminal_ne_suspended hterm

/-- Failing one task leaves every already-terminal task's record intact. -/
theorem failTask_frozen (e : Engine) (j x tid : Nat) (t : Task)
    (ht : e.tasks[tid]? = some t) (hterm : t.state.isTerminal = true)
    (hj : ∀ tj, e.tasks[j]? = some tj → tj.state.isTerminal = false) :
    (failTask e j x).tasks[tid]? = some t := by
  unfold failTask
  cases hjt : e.tasks[j]? with
  | none => simp only [hjt]; exact ht
  | some tj =>
      simp only [hjt]
      have hne : j ≠ tid := by
        intro h
        subst h
        have hf2 := hj tj hjt
        rw [ht] at hjt
        injection hjt with h2
        rw [h2] at hterm
        rw [hf2] at hterm
        exact Bool.false_ne_true hterm
      apply wakeAll_frozen
      · show (e.tasks.set j _)[tid]? = some t
        rw [List.getElem?_set_ne hne]
        exact ht
      · exact isTerminal_ne_suspended hterm

/-- Cancelling one task leaves every already-terminal task's record intact. -/
theorem cancelTaskNow_frozen (e : Engine) (j tid : Nat) (t : Task)
    (ht : e.tasks[tid]? = some t) (hterm : t.state.isTerminal = true)
    (hj : ∀ tj, e.tasks[j]? = some tj → tj.state.isTerminal = false) :
    (cancelTaskNow e j).tasks[tid]? = some t := by
  unfold cancelTaskNow
  cases hjt : e.tasks[j]? with
  | none => simp only [hjt]; exact ht
  | some tj =>
      simp only [hjt]
      have hne : j ≠ tid := by
        intro h
        subst h
        have hf2 := hj tj hjt
        rw [ht] at hjt
        injection hjt with h2
        rw [h2] at hterm
        rw [hf2] at hterm
        exact Bool.false_ne_true hterm
      apply wakeAll_frozen
      · show (e.tasks.set j _)[tid]? = some t
        rw [List.getElem?_set_ne hne]
        exact ht
      · exact isTerminal_ne_suspended hterm

/-- Running one computation leaves every already-terminal task's record intact. -/
theorem runComp_frozen (e : Engine) (j w tid : Nat) (t : Task)
    (f : List Nat → List Nat × Outcome)
    (ht : e.tasks[tid]? = some t) (hterm : t.state.isTerminal = true)
    (hj : ∀ tj, e.tasks[j]? = some tj → tj.state.isTerminal = false) :
    (runComp e j w f).tasks[tid]? = some t := by
  unfold runComp
  cases hf : (f e.shared).2 with
  | ok v =>
      simp only [hf]
      exact finishTask_frozen _ j v w tid t ht hterm hj
  | err x =>
      simp only [hf]
      exact failTask_frozen _ j x tid t ht hterm hj

/-- A task that delivers no outcome yet is not terminal. -/
theorem innerOutcome_none_not_terminal (t : Task) (h : innerOutcome t = none) :
    t.state.isTerminal = false := by
  unfold innerOutcome at h
  cases hs : t.state <;> simp [hs, TaskState.isTerminal] at h ⊢

/-- One scheduler step never changes the record of an already-terminal task:
terminal transitions are one-way. -/
theorem terminal_frozen_step (e : Engine) (tid : Nat) (t : Task)
    (ht : e.tasks[tid]? = some t) (hterm : t.state.isTerminal = true) :
    (step e).tasks[tid]? = some t := by
  unfold step
  cases hr : e.ready with
  | nil => exact ht
  | cons j rest =>
      simp only []
      cases hj : e.tasks[j]? with
      | none => simp only [hj]; exact ht
      | some tj =>
          simp only [hj]
          by_cases hjterm : tj.state.isTerminal = true
          · simp only [hjterm, if_true]
            exact ht
          · have hjf : tj.state.isTerminal = false := by
              cases h2 : tj.state.isTerminal
              · rfl
              · exact absurd h2 hjterm
            have hjall : ∀ tj', e.tasks[j]? = some tj' → tj'.state.isTerminal = false := by
              intro tj' h'
              rw [hj] at h'
              injection h' with h2
              rw [← h2]
              exact hjf
            simp only [hjf, Bool.false_eq_true, if_false]
            by_cases hcr : tj.cancelRequested = true
            · simp only [hcr, if_true]
              exact cancelTaskNow_frozen _ j tid t ht hterm hjall
            · simp only [Bool.not_eq_true] at hcr
              simp only [hcr, Bool.false_eq_true, if_false]
              cases hcomp : tj.comp with
              | op f => exact runComp_frozen _ j _ tid t f ht hterm hjall
              | waitThen tgt k =>
                  cases htgt : e.tasks[tgt]? with
                  | none =>
                      simp only [htgt]
                      exact failTask_frozen _ j cancelCode tid t ht hterm hjall
                  | some tt =>
                      simp only [htgt]
                      cases hio : innerOutcome tt with
                      | some out =>
                          simp only [hio]
                          exact runComp_frozen _ j _ tid t (k out) ht hterm hjall
                      | none =>
                          simp only [hio]
                          have httf : tt.state.isTerminal = false :=
                            innerOutcome_none_not_terminal tt hio
                          have hne_j : j ≠ tid := by
                            intro h
                            subst h
                            rw [ht] at hj
                            injection hj with h2
                            rw [h2] at hterm
                            rw [hjf] at hterm
                            exact Bool.false_ne_true hterm
                          have hne_tgt : tgt ≠ tid := by
                            intro h
                            subst h
                            rw [ht] at htgt
                            injection htgt with h2
                            rw [h2] at hterm
                            rw [httf] at hterm
                            exact Bool.false_ne_true hterm
                          show ((e.tasks.set j _).set tgt _)[tid]? = some t
                          rw [List.getElem?_set_ne hne_tgt, List.getElem?_set_ne hne_j]
                          exact ht

/-- Submitting never modifies the task table. -/
theorem submit_tasks (e : Engine) (j : Nat) : (submit e j).tasks = e.tasks := by
  unfold submit
  cases h : e.tasks[j]? with
  | none => rfl
  | some t =>
      simp only [h]
      split <;> rfl

/-- The scheduler loop never changes the record of an already-terminal task. -/
theorem terminal_frozen_runAll (fuel : Nat) (e : Engine) (tid : Nat) (t : Task)
    (ht : e.tasks[tid]? = some t) (hterm : t.state.isTerminal = true) :
    (runAll fuel e).tasks[tid]? = some t := by
  induction fuel generalizing e with
  | zero => exact ht
  | succ n ih =>
      by_cases he : e.ready.isEmpty
      · simp only [runAll, he, if_true]
        exact ht
      · simp only [runAll, he, Bool.false_eq_true, if_false]
        exact ih (step e) (terminal_frozen_step e tid t ht hterm)

/-- C7: a transition into a terminal state is one-way and idempotent: once a
task's record is terminal, no further operation — a scheduler step, a whole
scheduler run, submit, cancel, or callback registration of any kind — ever
changes its state, and its result/failure record stays immutable (cancel can
only flip the advisory cancellation flag). -/
theorem terminal_state_immutable (e : Engine) (tid : Nat) (t : Task)
    (ht : e.tasks[tid]? = some t) (hterm : t.state.isTerminal = true) :
    ((step e).tasks[tid]? = some t) ∧
    (∀ fuel, (runAll fuel e).tasks[tid]? = some t) ∧
    (∀ j, (submit e j).tasks[tid]? = some t) ∧
    (∀ j, ∃ t', (cancelReq e j).tasks[tid]? = some t' ∧ t'.state = t.state ∧
        t'.result = t.result ∧ t'.failure = t.failure) ∧
    (∀ j cb, (notifyFinished e j cb).tasks[tid]? = some t) ∧
    (∀ j cb, (notifyFailed e j cb).tasks[tid]? = some t) ∧
    (∀ j cb, (notifyCancelled e j cb).tasks[tid]? = some t) := by
  refine ⟨terminal_frozen_step e tid t ht hterm,
          fun fuel => terminal_frozen_runAll fuel e tid t ht hterm, ?_, ?_, ?_, ?_, ?_⟩
  · intro j
    rw [submit_tasks]
    exact ht
  · intro j
    unfold cancelReq
    cases hj : e.tasks[j]? with
    | none => exact ⟨t, ht, rfl, rfl, rfl⟩
    | some tj =>
        simp only [hj]
        by_cases hjt : j = tid
        · subst hjt
          rw [ht] at hj
          injection hj with h2
          subst h2
          refine ⟨{ t with cancelRequested := true }, ?_, rfl, rfl, rfl⟩
          show (e.tasks.set j _)[j]? = _
          rw [List.getElem?_set_eq_of_lt _ (List.getElem?_eq_some.mp ht).1]
        · refine ⟨t, ?_, rfl, rfl, rfl⟩
          show (e.tasks.set j _)[tid]? = some t
          rw [List.getElem?_set_ne hjt]
          exact ht
  · intro j cb
    unfold notifyFinished
    cases hj : e.tasks[j]? with
    | none => exact ht
    | some tj =>
        simp only [hj]
        cases hs : tj.state with
        | finished => exact ht
        | failed => exact ht
        | cancelled => exact ht
        | pending =>
            have hjt : j ≠ tid := by
              intro h
              subst h
              rw [ht] at hj
              injection hj with h2
              rw [h2, hs] at hterm
              exact absurd hterm (by decide)
            show (e.tasks.set j _)[tid]? = some t
            rw [List.getElem?_set_ne hjt]
            exact ht
        | running =>
            have hjt : j ≠ tid := by
              intro h
              subst h
              rw [ht] at hj
              injection hj with h2
              rw [h2, hs] at hterm
              exact absurd hterm (by decide)
            show (e.tasks.set j _)[tid]? = some t
            rw [List.getElem?_set_ne hjt]
            exact ht
        | suspended =>
            have hjt : j ≠ tid := by
              intro h
              subst h
              rw [ht] at hj
              injection hj with h2
              rw [h2, hs] at hterm
              exact absurd hterm (by decide)
            show (e.tasks.set j _)[tid]? = some t
            rw [List.getElem?_set_ne hjt]
            exact ht
  · intro j cb
    unfold notifyFailed
    cases hj : e.tasks[j]? with
    | none => exact ht
    | some tj =>
        simp only [hj]
        cases hs : tj.state with
        | finished => exact ht
        | failed => exact ht
        | cancelled => exact ht
        | pending =>
            have hjt : j ≠ tid := by
              intro h
              subst h
              rw [ht] at hj
              injection hj with h2
              rw [h2, hs] at hterm
              exact absurd hterm (by decide)
            show (e.tasks.set j _)[tid]? = some t
            rw [List.getElem?_set_ne hjt]
            exact ht
        | running =>
            have hjt : j ≠ tid := by
              intro h
              subst h
              rw [ht] at hj
              injection hj with h2
              rw [h2, hs] at hterm
              exact absurd hterm (by decide)
            show (e.tasks.set j _)[tid]? = some t
            rw [List.getElem?_set_ne hjt]
            exact ht
        | suspended =>
            have hjt : j ≠ tid := by
              intro h
              subst h
              rw [ht] at hj
              injection hj with h2
              rw [h2, hs] at hterm
              exact absurd hterm (by decide)
            show (e.tasks.set j _)[tid]? = some t
            rw [List.getElem?_set_ne hjt]
            exact ht
  · intro j cb
    unfold notifyCancelled
    cases hj : e.tasks[j]? with
    | none => exact ht
    | some tj =>
        simp only [hj]
        cases hs : tj.state with
        | finished => exact ht
        | failed => exact ht
        | cancelled => exact ht
        | pending =>
            have hjt : j ≠ tid := by
              intro h
              subst h
              rw [ht] at hj
              injection hj with h2
              rw [h2, hs] at hterm
              exact absurd hterm (by decide)
            show (e.tasks.set j _)[tid]? = some t
            rw [List.getElem?_set_ne hjt]
            exact ht
        | running =>
            have hjt : j ≠ tid := by
              intro h
              subst h
              rw [ht] at hj
              injection hj with h2
              rw [h2, hs] at hterm
              exact absurd hterm (by decide)
            show (e.tasks.set j _)[tid]? = some t
            rw [List.getElem?_set_ne hjt]
            exact ht
        | suspended =>
            have hjt : j ≠ tid := by
              intro h
              subst h
              rw [ht] at hj
              injection hj with h2
              rw [h2, hs] at hterm
              exact absurd hterm (by decide)
            show (e.tasks.set j _)[tid]? = some t
            rw [List.getElem?_set_ne hjt]
            exact ht

/-- C7 witness: the finished probe task's record survives a scheduler step
and a callback registration untouched. -/
theorem terminal_state_immutable_witness :
    (step doneProbeEngine).tasks[0]? = some doneProbe ∧
    (∀ j cb, (notifyFinished doneProbeEngine j cb).tasks[0]? = some doneProbe) :=
  ⟨(terminal_state_immutable doneProbeEngine 0 doneProbe rfl rfl).1,
   (terminal_state_immutable doneProbeEngine 0 doneProbe rfl rfl).2.2.2.2.1⟩

/-- A successful index lookup yields a member of the list. -/
theorem mem_of_lookup {l : List Task} {n : Nat} {a : Task} (h : l[n]? = some a) : a ∈ l := by
  obtain ⟨hlt, he⟩ := List.getElem?_eq_some.mp h
  exact he ▸ List.getElem_mem hlt

/-- Setting an entry without external reference keeps the table free of them. -/
theorem noExt_set {l : List Task} {i : Nat} {t' : Task}
    (h : ∀ t ∈ l, t.externalRef = false) (ht' : t'.externalRef = false) :
    ∀ t ∈ l.set i t', t.externalRef = false := by
  intro a ha
  rcases List.mem_or_eq_of_mem_set ha with h1 | h1
  · exact h a h1
  · subst h1
    exact ht'

/-- Waking a waiter introduces no external result reference. -/
theorem wakeOne_noExt (e : Engine) (w : Nat) (h : ∀ t ∈ e.tasks, t.externalRef = false) :
    ∀ t ∈ (wakeOne e w).tasks, t.externalRef = false := by
  unfold wakeOne
  cases hw : e.tasks[w]? with
  | none => exact h
  | some tw =>
      simp only [hw]
      by_cases hsus : tw.state = .suspended
      · rw [if_pos hsus]
        exact noExt_set h (h tw (mem_of_lookup hw))
      · rw [if_neg hsus]
        exact h

/-- Waking a waiter set introduces no external result reference. -/
theorem wakeAll_noExt (ws : List Nat) (e : Engine)
    (h : ∀ t ∈ e.tasks, t.externalRef = false) :
    ∀ t ∈ (wakeAll e ws).tasks, t.externalRef = false := by
  induction ws generalizing e with
  | nil => exact h
  | cons w ws ih => exact ih (wakeOne e w) (wakeOne_noExt e w h)

/-- Finishing a task introduces no external result reference. -/
theorem finishTask_noExt (e : Engine) (tid v w : Nat)
    (h : ∀ t ∈ e.tasks, t.externalRef = false) :
    ∀ t ∈ (finishTask e tid v w).tasks, t.externalRef = false := by
  unfold finishTask
  cases ht : e.tasks[tid]? with
  | none => exact h
  | some t =>
      simp only [ht]
      exact wakeAll_noExt _ _ (noExt_set h (h t (mem_of_lookup ht)))

/-- Failing a task introduces no external result reference. -/
theorem failTask_noExt (e : Engine) (tid x : Nat)
    (h : ∀ t ∈ e.tasks, t.externalRef = false) :
    ∀ t ∈ (failTask e tid x).tasks, t.externalRef = false := by
  unfold failTask
  cases ht : e.tasks[tid]? with
  | none => exact h
  | some t =>
      simp only [ht]
      exact wakeAll_noExt _ _ (noExt_set h (h t (mem_of_lookup ht)))

/-- Cancelling a task introduces no external result reference. -/
theorem cancelTaskNow_noExt (e : Engine) (tid : Nat)
    (h : ∀ t ∈ e.tasks, t.externalRef = false) :
    ∀ t ∈ (cancelTaskNow e tid).tasks, t.externalRef = false := by
  unfold cancelTaskNow
  cases ht : e.tasks[tid]? with
  | none => exact h
  | some t =>
      simp only [ht]
      exact wakeAll_noExt _ _ (noExt_set h (h t (mem_of_lookup ht)))

/-- Running a computation introduces no external result reference. -/
theorem runComp_noExt (e : Engine) (tid w : Nat) (f : List Nat → List Nat × Outcome)
    (h : ∀ t ∈ e.tasks, t.externalRef = false) :
    ∀ t ∈ (runComp e tid w f).tasks, t.externalRef = false := by
  unfold runComp
  cases hf : (f e.shared).2 with
  | ok v =>
      simp only [hf]
      exact finishTask_noExt _ tid v w h
  | err x =>
      simp only [hf]
      exact failTask_noExt _ tid x h

/-- A scheduler step introduces no external result reference. -/
theorem step_noExt (e : Engine) (h : ∀ t ∈ e.tasks, t.externalRef = false) :
    ∀ t ∈ (step e).tasks, t.externalRef = false := by
  unfold step
  cases hr : e.ready with
  | nil => exact h
  | cons tid rest =>
      simp only []
      cases htid : e.tasks[tid]? with
      | none => exact h
      | some t =>
          simp only [htid]
          by_cases hterm : t.state.isTerminal = true
          · simp only [hterm, if_true]
            exact h
          · have hf : t.state.isTerminal = false := by
              cases h2 : t.state.isTerminal
              · rfl
              · exact absurd h2 hterm
            simp only [hf, Bool.false_eq_true, if_false]
            by_cases hcr : t.cancelRequested = true
            · simp only [hcr, if_true]
              exact cancelTaskNow_noExt _ tid h
            · simp only [Bool.not_eq_true] at hcr
              simp only [hcr, Bool.false_eq_true, if_false]
              cases hcomp : t.comp with
              | op f => exact runComp_noExt _ tid _ f h
              | waitThen tgt k =>
                  cases htgt : e.tasks[tgt]? with
                  | none =>
                      simp only [htgt]
                      exact failTask_noExt _ tid cancelCode h
                  | some tt =>
                      simp only [htgt]
                      cases hio : innerOutcome tt with
                      | some out =>
                          simp only [hio]
                          exact runComp_noExt _ tid _ (k out) h
                      | none =>
                          simp only [hio]
                          refine noExt_set (noExt_set h ?_) ?_
                          · exact h t (mem_of_lookup htid)
                          · exact h tt (mem_of_lookup htgt)

/-- A scheduler run introduces no external result reference. -/
theorem runAll_noExt (fuel : Nat) (e : Engine) (h : ∀ t ∈ e.tasks, t.externalRef = false) :
    ∀ t ∈ (runAll fuel e).tasks, t.externalRef = false := by
  induction fuel generalizing e with
  | zero => exact h
  | succ n ih =>
      by_cases he : e.ready.isEmpty
      · simp only [runAll, he, if_true]
        exact h
      · simp only [runAll, he, Bool.false_eq_true, if_false]
        exact ih (step e) (step_noExt e h)

/-- Waking a waiter leaves the worker slots and worker count unchanged. -/
theorem wakeOne_slots (e : Engine) (w : Nat) :
    (wakeOne e w).slots = e.slots ∧ (wakeOne e w).numWorkers = e.numWorkers := by
  unfold wakeOne
  cases hw : e.tasks[w]? with
  | none => exact ⟨rfl, rfl⟩
  | some tw =>
      simp only [hw]
      by_cases hsus : tw.state = .suspended
      · rw [if_pos hsus]
        exact ⟨rfl, rfl⟩
      · rw [if_neg hsus]
        exact ⟨rfl, rfl⟩

/-- Waking a waiter set leaves the worker slots and worker count unchanged. -/
theorem wakeAll_slots (ws : List Nat) (e : Engine) :
    (wakeAll e ws).slots = e.slots ∧ (wakeAll e ws).numWorkers = e.numWorkers := by
  induction ws generalizing e with
  | nil => exact ⟨rfl, rfl⟩
  | cons w ws ih =>
      obtain ⟨h1, h2⟩ := ih (wakeOne e w)
      obtain ⟨h3, h4⟩ := wakeOne_slots e w
      exact ⟨h1.trans h3, h2.trans h4⟩

/-- Finishing a task parks its result in one existing slot: the slot count and
worker count are unchanged. -/
theorem finishTask_slots (e : Engine) (tid v w : Nat) :
    (finishTask e tid v w).slots.length = e.slots.length ∧
    (finishTask e tid v w).numWorkers = e.numWorkers := by
  unfold finishTask
  cases ht : e.tasks[tid]? with
  | none => exact ⟨rfl, rfl⟩
  | some t =>
      simp only [ht]
      obtain ⟨h1, h2⟩ := wakeAll_slots t.waiters
        { e with
            tasks := e.tasks.set tid { t with state := .finished, result := some v },
            events := e.events ++ finEvents tid t.finishedCbs v,
            slots := e.slots.set w (some tid) }
      rw [h1, h2]
      exact ⟨by simp, by simp⟩

/-- Failing a task leaves the slots and worker count unchanged. -/
theorem failTask_slots (e : Engine) (tid x : Nat) :
    (failTask e tid x).slots.length = e.slots.length ∧
    (failTask e tid x).numWorkers = e.numWorkers := by
  unfold failTask
  cases ht : e.tasks[tid]? with
  | none => exact ⟨rfl, rfl⟩
  | some t =>
      simp only [ht]
      obtain ⟨h1, h2⟩ := wakeAll_slots t.waiters
        { e with
            tasks := e.tasks.set tid { t with state := .failed, failure := some x },
            events := e.events ++ failEvents tid t.failedCbs x }
      rw [h1, h2]
      exact ⟨rfl, rfl⟩

/-- Cancelling a task leaves the slots and worker count unchanged. -/
theorem cancelTaskNow_slots (e : Engine) (tid : Nat) :
    (cancelTaskNow e tid).slots.length = e.slots.length ∧
    (cancelTaskNow e tid).numWorkers = e.numWorkers := by
  unfold cancelTaskNow
  cases ht : e.tasks[tid]? with
  | none => exact ⟨rfl, rfl⟩
  | some t =>
      simp only [ht]
      obtain ⟨h1, h2⟩ := wakeAll_slots t.waiters
        { e with
            tasks := e.tasks.set tid { t with state := .cancelled },
            events := e.events ++ canclEvents tid t.cancelledCbs }
      rw [h1, h2]
      exact ⟨rfl, rfl⟩

/-- Running a computation preserves the slot count and worker count. -/
theorem runComp_slots (e : Engine) (tid w : Nat) (f : List Nat → List Nat × Outcome) :
    (runComp e tid w f).slots.length = e.slots.length ∧
    (runComp e tid w f).numWorkers = e.numWorkers := by
  unfold runComp
  cases hf : (f e.shared).2 with
  | ok v =>
      simp only [hf]
      exact finishTask_slots _ tid v w
  | err x =>
      simp only [hf]
      exact failTask_slots _ tid x

/-- A scheduler step preserves the slot count and worker count: one slot per
worker, always. -/
theorem step_slots (e : Engine) :
    (step e).slots.length = e.slots.length ∧ (step e).numWorkers = e.numWorkers := by
  unfold step
  cases hr : e.ready with
  | nil => exact ⟨rfl, rfl⟩
  | cons tid rest =>
      simp only []
      cases htid : e.tasks[tid]? with
      | none => exact ⟨by simp, by simp⟩
      | some t =>
          simp only [htid]
          by_cases hterm : t.state.isTerminal = true
          · simp only [hterm, if_true]
            exact ⟨by simp, by simp⟩
          · have hf : t.state.isTerminal = false := by
              cases h2 : t.state.isTerminal
              · rfl
              · exact absurd h2 hterm
            simp only [hf, Bool.false_eq_true, if_false]
            by_cases hcr : t.cancelRequested = true
            · simp only [hcr, if_true]
              obtain ⟨h1, h2⟩ := cancelTaskNow_slots
                { e with ready := rest, tick := e.tick + 1,
                         slots := e.slots.set (e.tick % max 1 e.numWorkers) none } tid
              rw [h1, h2]
              exact ⟨by simp, by simp⟩
            · simp only [Bool.not_eq_true] at hcr
              simp only [hcr, Bool.false_eq_true, if_false]
              cases hcomp : t.comp with
              | op f =>
                  obtain ⟨h1, h2⟩ := runComp_slots
                    { e with ready := rest, tick := e.tick + 1,
                             slots := e.slots.set (e.tick % max 1 e.numWorkers) none } tid
                    (e.tick % max 1 e.numWorkers) f
                  rw [h1, h2]
                  exact ⟨by simp, by simp⟩
              | waitThen tgt k =>
                  cases htgt : e.tasks[tgt]? with
                  | none =>
                      simp only [htgt]
                      obtain ⟨h1, h2⟩ := failTask_slots
                        { e with ready := rest, tick := e.tick + 1,
                                 slots := e.slots.set (e.tick % max 1 e.numWorkers) none } tid
                        cancelCode
                      rw [h1, h2]
                      exact ⟨by simp, by simp⟩
                  | some tt =>
                      simp only [htgt]
                      cases hio : innerOutcome tt with
                      | some out =>
                          simp only [hio]
                          obtain ⟨h1, h2⟩ := runComp_slots
                            { e with ready := rest, tick := e.tick + 1,
                                     slots := e.slots.set (e.tick % max 1 e.numWorkers) none } tid
                            (e.tick % max 1 e.numWorkers) (k out)
                          rw [h1, h2]
                          exact ⟨by simp, by simp⟩
                      | none =>
                          simp only [hio]
                          exact ⟨by simp, by simp⟩

/-- A scheduler run preserves the slot count and worker count. -/
theorem runAll_slots (fuel : Nat) (e : Engine) :
    (runAll fuel e).slots.length = e.slots.length ∧
    (runAll fuel e).numWorkers = e.numWorkers := by
  induction fuel generalizing e with
  | zero => exact ⟨rfl, rfl⟩
  | succ n ih =>
      by_cases he : e.ready.isEmpty
      · simp only [runAll, he, if_true]
        exact ⟨trivial, trivial⟩
      · simp only [runAll, he, Bool.false_eq_true, if_false]
        obtain ⟨h1, h2⟩ := ih (step e)
        obtain ⟨h3, h4⟩ := step_slots e
        exact ⟨h1.trans h3, h2.trans h4⟩

/-- Under the discard-immediately workload no finished result is externally
referenced. -/
theorem externalLive_zero (e : Engine) (h : noExternalRefs e) : externalLive e = 0 := by
  unfold externalLive
  have : e.tasks.filter (fun t => t.externalRef && t.state == .finished) = [] := by
    rw [List.filter_eq_nil_iff]
    intro t ht
    rw [h t ht]
    simp
  rw [this]
  rfl

/-- C3: under a workload that discards every result immediately (no external
references), at every instant of the run the number of completed results the
engine keeps alive never exceeds the configured worker count — each worker
holds at most the one result it has not yet handed back — and after the run
plus the final hand-back to the scheduler loop the engine retains no result
reference at all. -/
theorem results_not_retained (e : Engine) (fuel : Nat)
    (hx : noExternalRefs e) (hs : slotsWF e) :
    (∀ k, liveResults (runAll k e) ≤ e.numWorkers) ∧
    liveResults (handBack (runAll fuel e)) = 0 := by
  have hlive : ∀ k, liveResults (runAll k e) ≤ e.numWorkers := by
    intro k
    have hx' : noExternalRefs (runAll k e) := runAll_noExt k e hx
    obtain ⟨h1, h2⟩ := runAll_slots k e
    unfold liveResults
    rw [externalLive_zero _ hx']
    have hcs : countSome (runAll k e).slots ≤ (runAll k e).slots.length :=
      List.length_filter_le _ _
    rw [h1, hs] at hcs
    omega
  refine ⟨hlive, ?_⟩
  have hx' : noExternalRefs (runAll fuel e) := runAll_noExt fuel e hx
  have hx'' : noExternalRefs (handBack (runAll fuel e)) := hx'
  unfold liveResults
  rw [externalLive_zero _ hx'']
  have : countSome (handBack (runAll fuel e)).slots = 0 := by
    unfold handBack countSome
    simp [List.filter_replicate]
  omega

/-- C3 witness: a one-worker engine running one increment task keeps at most
one live result during the run and none after hand-back. -/
theorem results_not_retained_witness :
    liveResults (handBack (runAll 3 (mkEngine [incComp] 1))) = 0 ∧
    liveResults (runAll 2 (mkEngine [incComp] 1)) ≤ (mkEngine [incComp] 1).numWorkers := by
  have hX : noExternalRefs (mkEngine [incComp] 1) := by
    intro t ht
    have h1 : t = freshTask incComp := by simpa [mkEngine] using ht
    rw [h1]
    rfl
  have hS : slotsWF (mkEngine [incComp] 1) := rfl
  exact ⟨(results_not_retained (mkEngine [incComp] 1) 3 hX hS).2,
         (results_not_retained (mkEngine [incComp] 1) 3 hX hS).1 2⟩

/-- Updating a not-yet-terminal task cannot break any recorded invocation:
recorded invocations only ever reference terminal tasks. -/
theorem consistentWith_set (tasks : List Task) (tid : Nat) (t t' : Task)
    (ht : tasks[tid]? = some t) (hnt : t.state.isTerminal = false)
    (ev : Event) (h : consistentWith tasks ev) :
    consistentWith (tasks.set tid t') ev := by
  cases ev with
  | fin tid' cb v =>
      obtain ⟨u, hu, hst, hres⟩ := h
      have hne : tid ≠ tid' := by
        intro hq
        subst hq
        rw [ht] at hu
        injection hu with h2
        subst h2
        rw [hst] at hnt
        exact absurd hnt (by decide)
      exact ⟨u, by rw [List.getElem?_set_ne hne]; exact hu, hst, hres⟩
  | fail tid' cb x i =>
      obtain ⟨u, hu, hst, hres, hinfo⟩ := h
      have hne : tid ≠ tid' := by
        intro hq
        subst hq
        rw [ht] at hu
        injection hu with h2
        subst h2
        rw [hst] at hnt
        exact absurd hnt (by decide)
      exact ⟨u, by rw [List.getElem?_set_ne hne]; exact hu, hst, hres, hinfo⟩
  | cancl tid' cb =>
      obtain ⟨u, hu, hst⟩ := h
      have hne : tid ≠ tid' := by
        intro hq
        subst hq
        rw [ht] at hu
        injection hu with h2
        subst h2
        rw [hst] at hnt
        exact absurd hnt (by decide)
      exact ⟨u, by rw [List.getElem?_set_ne hne]; exact hu, hst⟩

/-- Waking a waiter fires no callback. -/
theorem wakeOne_events (e : Engine) (w : Nat) : (wakeOne e w).events = e.events := by
  unfold wakeOne
  cases hw : e.tasks[w]? with
  | none => rfl
  | some tw =>
      simp only [hw]
      split <;> rfl

/-- Waking a waiter set fires no callback. -/
theorem wakeAll_events (ws : List Nat) (e : Engine) : (wakeAll e ws).events = e.events := by
  induction ws generalizing e with
  | nil => rfl
  | cons w ws ih => exact (ih (wakeOne e w)).trans (wakeOne_events e w)

/-- Waking waiters keeps the event log consistent. -/
theorem wakeAll_evConsistent (ws : List Nat) (e : Engine) (h : evConsistent e) :
    evConsistent (wakeAll e ws) := by
  intro ev hev
  rw [wakeAll_events] at hev
  have hc := h ev hev
  cases ev with
  | fin tid cb v =>
      obtain ⟨u, hu, hst, hres⟩ := hc
      refine ⟨u, ?_, hst, hres⟩
      exact wakeAll_frozen ws e tid u hu (isTerminal_ne_suspended (by rw [hst]; rfl))
  | fail tid cb x i =>
      obtain ⟨u, hu, hst, hres, hinfo⟩ := hc
      refine ⟨u, ?_, hst, hres, hinfo⟩
      exact wakeAll_frozen ws e tid u hu (isTerminal_ne_suspended (by rw [hst]; rfl))
  | cancl tid cb =>
      obtain ⟨u, hu, hst⟩ := hc
      refine ⟨u, ?_, hst⟩
      exact wakeAll_frozen ws e tid u hu (isTerminal_ne_suspended (by rw [hst]; rfl))

/-- Finishing a task keeps the event log consistent: its finished callbacks
fire with the result value, only after its state is Finished. -/
theorem finishTask_evConsistent (e : Engine) (tid v w : Nat) (t : Task)
    (ht : e.tasks[tid]? = some t) (hnt : t.state.isTerminal = false)
    (h : evConsistent e) : evConsistent (finishTask e tid v w) := by
  unfold finishTask
  simp only [ht]
  apply wakeAll_evConsistent
  intro ev hev
  rcases List.mem_append.mp hev with hold | hnew
  · exact consistentWith_set e.tasks tid t _ ht hnt ev (h ev hold)
  · obtain ⟨cb, hcb, hevq⟩ := List.mem_map.mp hnew
    subst hevq
    refine ⟨{ t with state := .finished, result := some v }, ?_, rfl, rfl⟩
    rw [List.getElem?_set_eq_of_lt _ (List.getElem?_eq_some.mp ht).1]

/-- Failing a task keeps the event log consistent: its failed callbacks fire
with the exception and its info, only after its state is Failed. -/
theorem failTask_evConsistent (e : Engine) (tid x : Nat) (t : Task)
    (ht : e.tasks[tid]? = some t) (hnt : t.state.isTerminal = false)
    (h : evConsistent e) : evConsistent (failTask e tid x) := by
  unfold failTask
  simp only [ht]
  apply wakeAll_evConsistent
  intro ev hev
  rcases List.mem_append.mp hev with hold | hnew
  · exact consistentWith_set e.tasks tid t _ ht hnt ev (h ev hold)
  · obtain ⟨cb, hcb, hevq⟩ := List.mem_map.mp hnew
    subst hevq
    refine ⟨{ t with state := .failed, failure := some x }, ?_, rfl, rfl, rfl⟩
    rw [List.getElem?_set_eq_of_lt _ (List.getElem?_eq_some.mp ht).1]

/-- Cancelling a task keeps the event log consistent. -/
theorem cancelTaskNow_evConsistent (e : Engine) (tid : Nat) (t : Task)
    (ht : e.tasks[tid]? = some t) (hnt : t.state.isTerminal = false)
    (h : evConsistent e) : evConsistent (cancelTaskNow e tid) := by
  unfold cancelTaskNow
  simp only [ht]
  apply wakeAll_evConsistent
  intro ev hev
  rcases List.mem_append.mp hev with hold | hnew
  · exact consistentWith_set e.tasks tid t _ ht hnt ev (h ev hold)
  · obtain ⟨cb, hcb, hevq⟩ := List.mem_map.mp hnew
    subst hevq
    refine ⟨{ t with state := .cancelled }, ?_, rfl⟩
    rw [List.getElem?_set_eq_of_lt _ (List.getElem?_eq_some.mp ht).1]

/-- Running a computation keeps the event log consistent. -/
theorem runComp_evConsistent (e : Engine) (tid w : Nat) (t : Task)
    (f : List Nat → List Nat × Outcome)
    (ht : e.tasks[tid]? = some t) (hnt : t.state.isTerminal = false)
    (h : evConsistent e) : evConsistent (runComp e tid w f) := by
  unfold runComp
  cases hf : (f e.shared).2 with
  | ok v =>
      simp only [hf]
      exact finishTask_evConsistent _ tid v w t ht hnt h
  | err x =>
      simp only [hf]
      exact failTask_evConsistent _ tid x t ht hnt h

/-- One scheduler step keeps the event log consistent: every callback fires
only after its task's terminal state is fixed, with the matching record. -/
theorem step_evConsistent (e : Engine) (h : evConsistent e) : evConsistent (step e) := by
  unfold step
  cases hr : e.ready with
  | nil => exact h
  | cons tid rest =>
      simp only []
      cases htid : e.tasks[tid]? with
      | none => exact h
      | some t =>
          simp only [htid]
          by_cases hterm : t.state.isTerminal = true
          · simp only [hterm, if_true]
            exact h
          · have hf : t.state.isTerminal = false := by
              cases h2 : t.state.isTerminal
              · rfl
              · exact absurd h2 hterm
            simp only [hf, Bool.false_eq_true, if_false]
            by_cases hcr : t.cancelRequested = true
            · simp only [hcr, if_true]
              exact cancelTaskNow_evConsistent _ tid t htid hf h
            · simp only [Bool.not_eq_true] at hcr
              simp only [hcr, Bool.false_eq_true, if_false]
              cases hcomp : t.comp with
              | op f => exact runComp_evConsistent _ tid _ t f htid hf h
              | waitThen tgt k =>
                  cases htgt : e.tasks[tgt]? with
                  | none =>
                      simp only [htgt]
                      exact failTask_evConsistent _ tid cancelCode t htid hf h
                  | some tt =>
                      simp only [htgt]
                      cases hio : innerOutcome tt with
                      | some out =>
                          simp only [hio]
                          exact runComp_evConsistent _ tid _ t (k out) htid hf h
                      | none =>
                          simp only [hio]
                          intro ev hev
                          have h1 := consistentWith_set e.tasks tid t
                            { t with
                                comp := Comp.waitThen tgt k
                                state := TaskState.suspended
                                cancelRequested := false }
                            htid hf ev (h ev hev)
                          by_cases hq : tgt = tid
                          · subst hq
                            refine consistentWith_set _ tgt
                              { t with
                                  comp := Comp.waitThen tgt k
                                  state := TaskState.suspended
                                  cancelRequested := false }
                              _ ?_ (by rfl) ev h1
                            rw [List.getElem?_set_eq_of_lt _ (List.getElem?_eq_some.mp htid).1]
                          · refine consistentWith_set _ tgt tt _ ?_
                              (innerOutcome_none_not_terminal tt hio) ev h1
                            rw [List.getElem?_set_ne (Ne.symm hq)]
                            exact htgt

/-- A whole scheduler run keeps the event log consistent. -/
theorem runAll_evConsistent (fuel : Nat) (e : Engine) (h : evConsistent e) :
    evConsistent (runAll fuel e) := by
  induction fuel generalizing e with
  | zero => exact h
  | succ n ih =>
      by_cases he : e.ready.isEmpty
      · simp only [runAll, he, if_true]
        exact h
      · simp only [runAll, he, Bool.false_eq_true, if_false]
        exact ih (step e) (step_evConsistent e h)

/-- Registering a finished callback on an already-Finished task dispatches it
immediately with the task's result value — no lost wakeup. -/
theorem notifyFinished_dispatch (e : Engine) (tid : Nat) (t : Task) (cb : Nat)
    (ht : e.tasks[tid]? = some t) (hst : t.state = .finished) :
    (notifyFinished e tid cb).events = e.events ++ [.fin tid cb (t.result.getD 0)] := by
  unfold notifyFinished
  simp only [ht, hst]

/-- Registering a failed callback on an already-Failed task dispatches it
immediately with the exception and its info — no lost wakeup. -/
theorem notifyFailed_dispatch (e : Engine) (tid : Nat) (t : Task) (cb : Nat)
    (ht : e.tasks[tid]? = some t) (hst : t.state = .failed) :
    (notifyFailed e tid cb).events
      = e.events ++ [.fail tid cb (t.failure.getD 0) (t.failure.getD 0)] := by
  unfold notifyFailed
  simp only [ht, hst]

/-- Registering a finished callback on a not-yet-terminal task fires
nothing yet. -/
theorem notifyFinished_defer (e : Engine) (tid : Nat) (t : Task) (cb : Nat)
    (ht : e.tasks[tid]? = some t) (hnt : t.state.isTerminal = false) :
    (notifyFinished e tid cb).events = e.events := by
  unfold notifyFinished
  simp only [ht]
  cases hs : t.state with
  | finished => rw [hs] at hnt; exact absurd hnt (by decide)
  | failed => rfl
  | cancelled => rfl
  | pending => rfl
  | running => rfl
  | suspended => rfl

/-- Every invocation a batch member emits carries that member's task id. -/
theorem emits_tid_eq (B : BatchSpec) (j : Nat) : ∀ ev ∈ B.emits j, ev.tid = j := by
  intro ev hev
  unfold BatchSpec.emits at hev
  cases hO : B.O j with
  | ok v =>
      rw [hO] at hev
      obtain ⟨cb, hcb, hevq⟩ := List.mem_map.mp hev
      subst hevq
      rfl
  | err x =>
      rw [hO] at hev
      obtain ⟨cb, hcb, hevq⟩ := List.mem_map.mp hev
      subst hevq
      rfl

/-- A task outside the batch has no invocation in the batch's event log. -/
theorem eventsOf_not_mem (B : BatchSpec) (ids : List Nat) (tid : Nat)
    (h : ∀ j ∈ ids, j ≠ tid) :
    eventsOf tid ((ids.map B.emits).flatten) = [] := by
  induction ids with
  | nil => rfl
  | cons j rest ih =>
      simp only [List.map_cons, List.flatten_cons]
      have h1 : (B.emits j).filter (fun ev => ev.tid == tid) = [] := by
        rw [List.filter_eq_nil_iff]
        intro ev hev
        rw [emits_tid_eq B j ev hev]
        simp [h j (by simp)]
      have h2 := ih fun j' hj' => h j' (by simp [hj'])
      unfold eventsOf at h2 ⊢
      rw [List.filter_append, h1, List.nil_append]
      exact h2

/-- In the batch's event log, the invocations belonging to a member are
exactly the ones it emits, in order. -/
theorem eventsOf_flatten (B : BatchSpec) (ids : List Nat) (tid : Nat)
    (hnd : ids.Nodup) (hmem : tid ∈ ids) :
    eventsOf tid ((ids.map B.emits).flatten) = B.emits tid := by
  induction ids with
  | nil => cases hmem
  | cons j rest ih =>
      simp only [List.map_cons, List.flatten_cons]
      by_cases hq : j = tid
      · subst hq
        have h1 : (B.emits j).filter (fun ev => ev.tid == j) = B.emits j := by
          rw [List.filter_eq_self]
          intro ev hev
          simp [emits_tid_eq B j ev hev]
        have h2 : eventsOf j ((rest.map B.emits).flatten) = [] :=
          eventsOf_not_mem B rest j fun j' hj' heq => (List.nodup_cons.mp hnd).1 (heq ▸ hj')
        unfold eventsOf at h2 ⊢
        rw [List.filter_append, h1, h2, List.append_nil]
      · have h1 : (B.emits j).filter (fun ev => ev.tid == tid) = [] := by
          rw [List.filter_eq_nil_iff]
          intro ev hev
          rw [emits_tid_eq B j ev hev]
          simp [hq]
        have hmem' : tid ∈ rest := by
          rcases List.mem_cons.mp hmem with h' | h'
          · exact absurd h'.symm hq
          · exact h'
        have h3 := ih hnd.of_cons hmem'
        unfold eventsOf at h3 ⊢
        rw [List.filter_append, h1, List.nil_append]
        exact h3

/-- C5: over a batch of fresh independent tasks, each task's recorded
invocations are exactly its registered callbacks of the one matching terminal
kind, fired once each in registration order (a list equality with the
registered callback list); at every instant of any run the event log is
consistent — no callback ever fires before its task's terminal state is fixed;
a finished callback registered after the task already finished is dispatched
immediately; registering on a not-yet-terminal task fires nothing yet. -/
theorem notifications_exact (B : BatchSpec) (ids : List Nat) (e : Engine)
    (hnd : ids.Nodup) (hready : e.ready = ids)
    (htasks : ∀ tid ∈ ids, e.tasks[tid]? = some (B.task tid))
    (hev : e.events = []) :
    (∀ tid ∈ ids,
        eventsOf tid (runAll ids.length e).events = B.emits tid ∧
        (∀ v, B.O tid = .ok v → B.emits tid = finEvents tid (B.fc tid) v) ∧
        (∀ x, B.O tid = .err x → B.emits tid = failEvents tid (B.fl tid) x)) ∧
    (∀ k, evConsistent (runAll k e)) ∧
    (∀ (e' : Engine) (tid : Nat) (t : Task) (cb : Nat),
        e'.tasks[tid]? = some t → t.state = .finished →
        (notifyFinished e' tid cb).events = e'.events ++ [.fin tid cb (t.result.getD 0)]) ∧
    (∀ (e' : Engine) (tid : Nat) (t : Task) (cb : Nat),
        e'.tasks[tid]? = some t → t.state.isTerminal = false →
        (notifyFinished e' tid cb).events = e'.events) := by
  obtain ⟨hb1, hb2, hb3, hb4, hb5⟩ := runAll_batch B ids e hnd hready htasks
  refine ⟨?_, ?_, notifyFinished_dispatch, notifyFinished_defer⟩
  · intro tid hm
    refine ⟨?_, fun v hv => B.emits_ok tid v hv, fun x hx => B.emits_err tid x hx⟩
    rw [hb3, hev, List.nil_append]
    exact eventsOf_flatten B ids tid hnd hm
  · intro k
    apply runAll_evConsistent
    intro ev hevm
    rw [hev] at hevm
    exact absurd hevm (List.not_mem_nil ev)

/-- C5 witness: the one-callback task's run records exactly its one finished
invocation. -/
theorem notifications_exact_witness :
    eventsOf 0 (runAll 1 oneCbEngine).events = oneCbBatch.emits 0 := by
  have h := (notifications_exact oneCbBatch [0] oneCbEngine
      (by decide) rfl
      (by
        intro tid hm
        have h0 : tid = 0 := by simpa using hm
        subst h0
        rfl)
      rfl).1 0 (by simp)
  exact h.1

/-- C10: every finished-notification callback is invoked with its task's
result value as argument and every failed-notification callback with two
arguments — the captured exception and its exception info — as the event-log
consistency invariant preserved by every run and the immediate-dispatch
equations state; the two invocation shapes are distinct `Event` constructors. -/
theorem callback_argument_shapes :
    (∀ (e : Engine) (fuel : Nat), evConsistent e → evConsistent (runAll fuel e)) ∧
    (∀ (e : Engine) (tid : Nat) (t : Task) (cb : Nat),
        e.tasks[tid]? = some t → t.state = .finished →
        (notifyFinished e tid cb).events = e.events ++ [.fin tid cb (t.result.getD 0)]) ∧
    (∀ (e : Engine) (tid : Nat) (t : Task) (cb : Nat),
        e.tasks[tid]? = some t → t.state = .failed →
        (notifyFailed e tid cb).events
          = e.events ++ [.fail tid cb (t.failure.getD 0) (t.failure.getD 0)]) :=
  ⟨fun e fuel h => runAll_evConsistent fuel e h, notifyFinished_dispatch, notifyFailed_dispatch⟩

/-- C10 witness: a concrete run stays consistent, and registering on the
finished probe task dispatches its result value 5. -/
theorem callback_argument_shapes_witness :
    evConsistent (runAll 2 (mkEngine [incComp] 1)) ∧
    (notifyFinished doneProbeEngine 0 9).events = [] ++ [.fin 0 9 5] := by
  constructor
  · apply callback_argument_shapes.1 (mkEngine [incComp] 1) 2
    intro ev hev
    exact absurd hev (List.not_mem_nil ev)
  · exact callback_argument_shapes.2.1 doneProbeEngine 0 doneProbe 9 rfl rfl

/-- C9 witness: waiting on an empty pool over a quiescent two-task engine
returns it unchanged with no error. -/
theorem empty_pool_wait_returns_witness :
    poolWait freshPool (mkEngine [incComp, incComp] 2) 5
      = ({ freshPool with started := true, finished := true },
         mkEngine [incComp, incComp] 2, none) :=
  empty_pool_wait_returns (mkEngine [incComp, incComp] 2) 5 rfl

end RequestModel
